import Mathlib

/-!
Verification of the Burrows-Wheeler Transform library in `BWT/BWT.py`.

The Python class `BWT` is shallowly embedded: strings become `List Char`
(Python compares strings lexicographically by code point, which matches the
`Char` order of Lean), Python `sorted` becomes `List.insertionSort` (two
stable ascending sorts agree on every input), the occurrence dictionary becomes an explicit
structure, and fallible operations (indexing errors, unbounded recursion)
return `Option`, with `none` standing for a raised exception or for
exhaustion of an explicit recursion budget.
-/

namespace BWTPy

/-- Python string `<=` on code points, on `List Char`. -/
def lexLe : List Char → List Char → Bool
  | [], _ => true
  | _ :: _, [] => false
  | a :: as, b :: bs => if a < b then true else if b < a then false else lexLe as bs

/-- The order used by Python string comparison, in propositional form. -/
def LexLeP (x y : List Char) : Prop := lexLe x y = true

instance : DecidableRel LexLeP := fun x y =>
  inferInstanceAs (Decidable (lexLe x y = true))

/-- The order on start indices used by `sorted(range(len(seq)), key=...)`:
compare the suffixes starting at the two indices. -/
def SufLeP (seq : List Char) (i j : Nat) : Prop :=
  lexLe (seq.drop i) (seq.drop j) = true

instance (seq : List Char) : DecidableRel (SufLeP seq) := fun i j =>
  inferInstanceAs (Decidable (lexLe (seq.drop i) (seq.drop j) = true))

/-- One step of `seq = seq[-1] + seq[:len(seq)-1]` in `criarMatriz`
(rotate right by one; `seq[-1]` is the final character). -/
def rodarDireita (seq : List Char) : List Char :=
  seq.drop (seq.length - 1) ++ seq.take (seq.length - 1)

/-- The loop of `criarMatriz`: append the current string, then rotate it
right, `k` times in total. -/
def criarMatrizAux : Nat → List Char → List (List Char)
  | 0, _ => []
  | k + 1, seq => seq :: criarMatrizAux k (rodarDireita seq)

/-- `criarMatriz(seq)`: the `len(seq)` successive right-rotations of `seq`,
starting with `seq` itself.  No validation of any kind is performed. -/
def criarMatriz (seq : List Char) : List (List Char) :=
  criarMatrizAux seq.length seq

/-- `ordenarMatriz(matriz) = sorted(matriz)`: stable ascending sort under
Python string comparison. -/
def ordenarMatriz (matriz : List (List Char)) : List (List Char) :=
  matriz.insertionSort LexLeP

/-- `construirBWT(matriz)`: concatenate `linha[-1]` over the rows.
`linha[-1]` raises `IndexError` on an empty row, modelled by `none`. -/
def construirBWT (matriz : List (List Char)) : Option (List Char) :=
  matriz.mapM List.getLast?

/-- `criarPrimeiraColuna(bwt) = sorted(bwt)`: the characters of `bwt` in
ascending order. -/
def criarPrimeiraColuna (bwt : List Char) : List Char :=
  bwt.insertionSort (· ≤ ·)

/-- `criarUltimaColuna(bwt)`: appends the characters of `bwt` one by one,
i.e. the list of characters of `bwt` in order. -/
def criarUltimaColuna (bwt : List Char) : List Char :=
  bwt

/-- The instance attribute `dicionarioOcorrencias`: a dictionary whose keys
are the distinct characters of the BWT string (in first-occurrence order,
as for a Python dict) and whose values are integers. -/
structure DicionarioOcorrencias where
  keys : List Char
  val : Char → Int

/-- `criarDicionarioOcorrencias(bwt)`: `{letra: -1 for letra in bwt}`. -/
def criarDicionarioOcorrencias (bwt : List Char) : DicionarioOcorrencias :=
  ⟨bwt.eraseDups, fun _ => -1⟩

/-- A rank tag.  The source builds the string `item + str(count)` (a
one-character symbol followed by the decimal occurrence count, the count
being a non-negative integer); such a string is uniquely determined by and
determines the pair (symbol, count), which is how we model it. -/
abbrev Etiqueta := Char × Int

/-- `decidirCaracter(item, chave, lista)`: when `item == chave`, increment
the dictionary entry of `chave` and append the tag of `item` with the new
count; otherwise do nothing.  Returns the updated dictionary and list. -/
def decidirCaracter (d : DicionarioOcorrencias) (item chave : Char)
    (lista : List Etiqueta) : DicionarioOcorrencias × List Etiqueta :=
  if item = chave then
    let novo := d.val chave + 1
    (⟨d.keys, fun c => if c = chave then novo else d.val c⟩, lista ++ [(item, novo)])
  else (d, lista)

/-- `preencherLista(listaSequencias, listaConcatenada)`: for each item, run
`decidirCaracter` against every key of the dictionary; afterwards reset
every dictionary entry to `-1`.  Returns the final dictionary and list. -/
def preencherLista (d : DicionarioOcorrencias) (listaSequencias : List Char)
    (listaConcatenada : List Etiqueta) : DicionarioOcorrencias × List Etiqueta :=
  let passo := listaSequencias.foldl
    (fun (st : DicionarioOcorrencias × List Etiqueta) item =>
      st.1.keys.foldl (fun st2 chave => decidirCaracter st2.1 item chave st2.2) st)
    (d, listaConcatenada)
  let d2 := passo.1.keys.foldl
    (fun (dd : DicionarioOcorrencias) chave =>
      ⟨dd.keys, fun c => if c = chave then -1 else dd.val c⟩)
    passo.1
  (d2, passo.2)

/-- One `for item in ultimaColuna` scan of `obterSequenciaOriginal`,
starting at position `indice` with `resto` the remaining items.  On a
match the matched symbol is appended and `letra` is replaced by
`primeiraColuna[indice]` (an out-of-range index raises, modelled `none`);
after each item the length test may return the accumulated list
(`Sum.inl`).  Reaching the end of the column yields the state for the
recursive call (`Sum.inr`). -/
def obterPassagem (primeiraColuna : List Etiqueta) (comprimento : Nat) :
    Etiqueta → List Char → Nat → List Etiqueta →
    Option ((List Char) ⊕ (Etiqueta × List Char))
  | letra, acc, _, [] => some (Sum.inr (letra, acc))
  | letra, acc, indice, item :: resto =>
    if item = letra then
      match primeiraColuna.get? indice with
      | none => none
      | some nova =>
        let acc2 := acc ++ [letra.1]
        if acc2.length = comprimento then some (Sum.inl acc2)
        else obterPassagem primeiraColuna comprimento nova acc2 (indice + 1) resto
    else
      if acc.length = comprimento then some (Sum.inl acc)
      else obterPassagem primeiraColuna comprimento letra acc (indice + 1) resto

/-- `obterSequenciaOriginal(letra, comprimentoUltimaColuna, primeiraColuna,
ultimaColuna)`.  The source recurses unconditionally after each full scan
with no failure path; the `fuel` argument makes that partiality explicit:
`none` means the recursion did not complete within `fuel` scans (or an
index was out of range). -/
def obterSequenciaOriginal :
    Nat → Etiqueta → Nat → List Etiqueta → List Etiqueta → List Char →
    Option (List Char)
  | 0, _, _, _, _, _ => none
  | fuel + 1, letra, comprimento, primeira, ultima, acc =>
    match obterPassagem primeira comprimento letra acc 0 ultima with
    | none => none
    | some (Sum.inl feito) => some feito
    | some (Sum.inr (letra2, acc2)) =>
      obterSequenciaOriginal fuel letra2 comprimento primeira ultima acc2

/-- `SequenciaOriginalEmString()`: `seq[1:] + seq[0]` (rotate left by one).
All reachable uses apply it to a non-empty list. -/
def SequenciaOriginalEmString (lista : List Char) : List Char :=
  lista.drop 1 ++ lista.take 1

/-- The full inversion pipeline run by the driver on a BWT string: tag the
sorted first column and the last column (sharing the one occurrence
dictionary of the instance, as the driver does), then walk from the tag
`(sent, 0)` — the driver passes the literal tag `'$0'`, i.e. the 0th
occurrence of the sentinel — and finish with `SequenciaOriginalEmString`. -/
def inverter (fuel : Nat) (sent : Char) (bwt : List Char) : Option (List Char) :=
  let primeiraColuna := criarPrimeiraColuna bwt
  let ultimaColuna := criarUltimaColuna bwt
  let d := criarDicionarioOcorrencias bwt
  let passo1 := preencherLista d primeiraColuna []
  let passo2 := preencherLista passo1.1 ultimaColuna []
  (obterSequenciaOriginal fuel (sent, 0) passo2.2.length passo1.2 passo2.2 []).map
    SequenciaOriginalEmString

/-- `suffix_array(seq) = sorted(range(len(seq)), key=lambda i: seq[i:])`:
the start indices of all suffixes, stably sorted by the suffix. -/
def suffix_array (seq : List Char) : List Nat :=
  (List.range seq.length).insertionSort (SufLeP seq)

/-- `count[c][i]` of `procuraPadraoBWT`: the running table satisfying
`count[c][i] = count[c][i-1] + (1 if bwt[i-1] == c else 0)`, i.e. the
number of occurrences of `c` among the first `i` characters of `bwt`
(every reachable index satisfies `i ≤ len(bwt)`). -/
def countPrefixo (bwt : List Char) (c : Char) : Nat → Nat
  | 0 => 0
  | i + 1 => countPrefixo bwt c i + (if bwt.get? i = some c then 1 else 0)

/-- The state of a `BWT` instance: `seqOriginal` and
`listaSequenciaOriginal` are set by `__init__`; `suffixArrayAttr` is
`none` while the name `suffix_array` is still bound to the method and
`some sa` after `suffix_array` has rebound it to its result list. -/
structure Instancia where
  seqOriginal : List Char
  listaSequenciaOriginal : List Char
  suffixArrayAttr : Option (List Nat)

/-- `BWT(seqOriginal)`. -/
def init (seqOriginal : List Char) : Instancia :=
  ⟨seqOriginal, [], none⟩

/-- A call `self.suffix_array(seq)`.  On a fresh instance this runs the
method, which rebinds the attribute to the resulting list and returns it;
once the attribute holds a list, the call raises `TypeError` (`'list'
object is not callable`), modelled by `none`. -/
def chamarSuffixArray (inst : Instancia) (seq : List Char) :
    Option (List Nat × Instancia) :=
  match inst.suffixArrayAttr with
  | none =>
    let sa := suffix_array seq
    some (sa, ⟨inst.seqOriginal, inst.listaSequenciaOriginal, some sa⟩)
  | some _ => none

/-- The `while top <= bottom` loop of `procuraPadraoBWT`.  The source pops
`pattern[-1]` and keeps `pattern[:-1]` each iteration, i.e. it consumes the
pattern from its last symbol: we therefore pass the reversed pattern and
consume it head-first, which is the same traversal.  `count[symbol]` on a
symbol absent from `set(bwt)` raises `KeyError` (`none`); when the pattern
is exhausted the suffix-array attribute is indexed — still the bound
method on a fresh instance, raising `TypeError` (`none`) — and the
offsets are returned sorted. -/
def pesquisaFM (bwt sorted_bwt : List Char) (saAttr : Option (List Nat)) :
    List Char → Int → Int → Option (List Nat)
  | revPattern, top, bottom =>
    if top ≤ bottom then
      match revPattern with
      | symbol :: resto =>
        if symbol ∈ bwt then
          if countPrefixo bwt symbol (bottom + 1).toNat > countPrefixo bwt symbol top.toNat then
            pesquisaFM bwt sorted_bwt saAttr resto
              (sorted_bwt.indexOf symbol + countPrefixo bwt symbol top.toNat)
              (sorted_bwt.indexOf symbol + countPrefixo bwt symbol (bottom + 1).toNat - 1)
          else some []
        else none
      | [] =>
        match saAttr with
        | none => none
        | some sa =>
          match (List.range' top.toNat ((bottom + 1 - top).toNat)).mapM sa.get? with
          | none => none
          | some offsets => some (offsets.insertionSort (· ≤ ·))
    else some []

/-- `procuraPadraoBWT(pattern)`: rebuild the BWT of `self.seqOriginal`
from scratch, sort it, then run the FM search loop from
`top = 0, bottom = len(bwt) - 1`. -/
def procuraPadraoBWT (inst : Instancia) (pattern : List Char) : Option (List Nat) :=
  match construirBWT (ordenarMatriz (criarMatriz inst.seqOriginal)) with
  | none => none
  | some bwt =>
    pesquisaFM bwt (bwt.insertionSort (· ≤ ·)) inst.suffixArrayAttr pattern.reverse
      0 ((bwt.length : Int) - 1)

end BWTPy

namespace BWTPy

/-! ### Specification-side definitions -/

/-- The cyclic rotation of `s` that starts at index `k`. -/
def rotacao (s : List Char) (k : Nat) : List Char :=
  s.drop k ++ s.take k

/-- The brute-force pattern-occurrence oracle from the specification: the
indices `i` with `S[i : i+len(P)] == P`, in ascending order. -/
def ocorrenciasForcaBruta (s p : List Char) : List Nat :=
  (List.range s.length).filter (fun i => (s.drop i).take p.length == p)

/-- Rank-tagging a column, specification form: position `j` holding symbol
`c` receives the tag `(c, k)` where `k` is the number of occurrences of
`c` strictly before position `j` in that column. -/
def etiquetarColunaAux (vistos : List Char) : List Char → List Etiqueta
  | [] => []
  | c :: resto => (c, (vistos.count c : Int)) :: etiquetarColunaAux (vistos ++ [c]) resto

/-- Rank tags of a whole column. -/
def etiquetarColuna (col : List Char) : List Etiqueta :=
  etiquetarColunaAux [] col

/-- The first column of the sorted rotation matrix: the character at the
start index of each sorted suffix. -/
def colunaF (s : List Char) : List Char :=
  (suffix_array s).map (fun k => s.getD k ' ')

/-- The last column of the sorted rotation matrix, i.e. the BWT string:
the character cyclically preceding each sorted suffix. -/
def colunaL (s : List Char) : List Char :=
  (suffix_array s).map (fun k => s.getD ((k + s.length - 1) % s.length) ' ')

/-- The row of the sorted matrix whose rotation starts at index `p`. -/
def linha (s : List Char) (p : Nat) : Nat :=
  (suffix_array s).indexOf p

/-- The rank tag standing at position `i` of a column. -/
def etiquetaDe (col : List Char) (i : Nat) : Etiqueta :=
  (col.getD i ' ', ((col.take i).count (col.getD i ' ') : Int))

/-- The characters accumulated by the reconstruction walk after `m`
appends: the sentinel followed by the first `m - 1` characters of the
sequence. -/
def acumulado (s : List Char) (c0 : Char) : Nat → List Char
  | 0 => []
  | m + 1 => c0 :: s.take m

/-! ### The lexicographic order `lexLe` -/

theorem lexLe_refl (x : List Char) : lexLe x x = true := by
  induction x with
  | nil => rfl
  | cons a as ih => simp [lexLe, ih]

theorem lexLe_total (x y : List Char) : (lexLe x y || lexLe y x) = true := by
  induction x generalizing y with
  | nil => simp [lexLe]
  | cons a as ih =>
    cases y with
    | nil => simp [lexLe]
    | cons b bs =>
      rcases lt_trichotomy a b with h | h | h
      · simp [lexLe, h, asymm h]
      · subst h
        simpa [lexLe] using ih bs
      · simp [lexLe, h, asymm h]

theorem lexLe_cons {a b : Char} {as bs : List Char} :
    lexLe (a :: as) (b :: bs) = true ↔ a < b ∨ (a = b ∧ lexLe as bs = true) := by
  simp only [lexLe]
  rcases lt_trichotomy a b with h | h | h
  · simp [h]
  · subst h; simp [lt_irrefl]
  · simp [h, asymm h, h.ne']

theorem lexLe_trans {x y z : List Char} (h1 : lexLe x y = true)
    (h2 : lexLe y z = true) : lexLe x z = true := by
  induction x generalizing y z with
  | nil => simp [lexLe]
  | cons a as ih =>
    cases y with
    | nil => simp [lexLe] at h1
    | cons b bs =>
      cases z with
      | nil => simp [lexLe] at h2
      | cons c cs =>
        rw [lexLe_cons] at h1 h2 ⊢
        rcases h1 with h1 | ⟨rfl, h1⟩
        · rcases h2 with h2 | ⟨rfl, h2⟩
          · exact Or.inl (lt_trans h1 h2)
          · exact Or.inl h1
        · rcases h2 with h2 | ⟨rfl, h2⟩
          · exact Or.inl h2
          · exact Or.inr ⟨rfl, ih h1 h2⟩

theorem lexLe_antisymm {x y : List Char} (h1 : lexLe x y = true)
    (h2 : lexLe y x = true) : x = y := by
  induction x generalizing y with
  | nil =>
    cases y with
    | nil => rfl
    | cons b bs => simp [lexLe] at h2
  | cons a as ih =>
    cases y with
    | nil => simp [lexLe] at h1
    | cons b bs =>
      rw [lexLe_cons] at h1 h2
      rcases h1 with h1 | ⟨rfl, h1⟩
      · rcases h2 with h2 | ⟨rfl, h2⟩
        · exact absurd h1 (asymm h2)
        · exact absurd h1 (lt_irrefl _)
      · rcases h2 with h2 | ⟨-, h2⟩
        · exact absurd h2 (lt_irrefl _)
        · rw [ih h1 h2]

/-- If neither of `x`, `y` is a leading block of the other, comparison of
`x ++ u` against `y ++ v` is decided inside `x` and `y`. -/
theorem lexLe_append_congr {x y : List Char} (u v : List Char)
    (hx : y.take x.length ≠ x) (hy : x.take y.length ≠ y) :
    lexLe (x ++ u) (y ++ v) = lexLe x y := by
  induction x generalizing y with
  | nil => simp at hx
  | cons a as ih =>
    cases y with
    | nil => simp at hy
    | cons b bs =>
      simp only [List.cons_append, lexLe]
      rcases lt_trichotomy a b with hab | hab | hab
      · simp [hab]
      · subst hab
        have hx' : bs.take as.length ≠ as := by
          intro h
          apply hx
          simp [List.take_succ_cons, h]
        have hy' : as.take bs.length ≠ bs := by
          intro h
          apply hy
          simp [List.take_succ_cons, h]
        simp [lt_irrefl, ih hx' hy']
      · simp [hab, asymm hab]

instance : IsTotal (List Char) LexLeP :=
  ⟨fun x y => by
    have := lexLe_total x y
    rcases Bool.or_eq_true_iff.mp this with h | h
    · exact Or.inl h
    · exact Or.inr h⟩

instance : IsTrans (List Char) LexLeP :=
  ⟨fun _ _ _ => lexLe_trans⟩

instance : IsAntisymm (List Char) LexLeP :=
  ⟨fun _ _ => lexLe_antisymm⟩

instance (s : List Char) : IsTotal Nat (SufLeP s) :=
  ⟨fun i j => by
    have := lexLe_total (s.drop i) (s.drop j)
    rcases Bool.or_eq_true_iff.mp this with h | h
    · exact Or.inl h
    · exact Or.inr h⟩

instance (s : List Char) : IsTrans Nat (SufLeP s) :=
  ⟨fun _ _ _ => lexLe_trans⟩

/-- The head of the smaller of two non-empty lists is the smaller head. -/
theorem lexLe_head_le {a b : Char} {as bs : List Char}
    (h : lexLe (a :: as) (b :: bs) = true) : a ≤ b := by
  simp only [lexLe] at h
  rcases lt_trichotomy a b with hab | hab | hab
  · exact le_of_lt hab
  · exact le_of_eq hab
  · simp [hab, asymm hab] at h

/-! ### The rotation matrix -/

theorem rotacao_length (s : List Char) (k : Nat) : (rotacao s k).length = s.length := by
  simp [rotacao]
  omega

theorem rotacao_zero (s : List Char) : rotacao s 0 = s := by
  simp [rotacao]

theorem rotacao_ne_nil {s : List Char} (hs : s ≠ []) (k : Nat) : rotacao s k ≠ [] := by
  intro h
  apply hs
  have := rotacao_length s k
  rw [h] at this
  exact List.length_eq_zero.mp this.symm

theorem rodarDireita_length (l : List Char) : (rodarDireita l).length = l.length := by
  unfold rodarDireita
  rw [List.length_append, List.length_drop, List.length_take]
  omega

theorem rodar_rotacao {s : List Char} {k : Nat} (hk : k < s.length) :
    rodarDireita (rotacao s k) = rotacao s ((k + s.length - 1) % s.length) := by
  have hn : 0 < s.length := Nat.lt_of_le_of_lt (Nat.zero_le k) hk
  cases k with
  | zero =>
    have h1 : (0 + s.length - 1) % s.length = s.length - 1 := by
      rw [Nat.zero_add]
      exact Nat.mod_eq_of_lt (by omega)
    rw [h1, rotacao_zero]
    rfl
  | succ j =>
    have hmod : (j + 1 + s.length - 1) % s.length = j := by
      have : j + 1 + s.length - 1 = j + s.length := by omega
      rw [this, Nat.add_mod_right]
      exact Nat.mod_eq_of_lt (by omega)
    rw [hmod]
    unfold rodarDireita
    rw [rotacao_length]
    have hlen : (s.take (j + 1)).length = j + 1 := by
      rw [List.length_take]
      omega
    have hsplit : s.length - 1 = (s.drop (j + 1)).length + j := by
      rw [List.length_drop]
      omega
    unfold rotacao
    rw [hsplit, List.drop_append, List.take_append]
    have htd : (s.take (j + 1)).drop j = (s.drop j).take 1 := by
      rw [List.drop_take]
      congr 1
      omega
    have htt : (s.take (j + 1)).take j = s.take j := by
      rw [List.take_take]
      congr 1
      omega
    rw [htd, htt]
    have hdd : s.drop (j + 1) = (s.drop j).drop 1 := by
      rw [List.drop_drop]
    rw [hdd, ← List.append_assoc, List.take_append_drop]

/-- Every row built by the rotation loop has the length of its seed. -/
theorem criarMatrizAux_mem_length {k : Nat} {s0 : List Char} :
    ∀ r ∈ criarMatrizAux k s0, r.length = s0.length := by
  induction k generalizing s0 with
  | zero => intro r hr; simp [criarMatrizAux] at hr
  | succ k ih =>
    intro r hr
    simp only [criarMatrizAux, List.mem_cons] at hr
    rcases hr with rfl | hr
    · rfl
    · rw [ih r hr, rodarDireita_length]

theorem criarMatrizAux_length (k : Nat) (s0 : List Char) :
    (criarMatrizAux k s0).length = k := by
  induction k generalizing s0 with
  | zero => rfl
  | succ k ih => simp [criarMatrizAux, ih]

/-- The descending run of rotations produced by repeated right-rotation. -/
theorem criarMatrizAux_desc {s : List Char} :
    ∀ j m, j ≤ m + 1 → m < s.length →
      criarMatrizAux j (rotacao s m) =
        ((List.range' (m + 1 - j) j).map (rotacao s)).reverse := by
  intro j
  induction j with
  | zero => intro m _ _; simp [criarMatrizAux]
  | succ j ih =>
    intro m hjm hm
    have hn : 0 < s.length := Nat.lt_of_le_of_lt (Nat.zero_le m) hm
    show rotacao s m :: criarMatrizAux j (rodarDireita (rotacao s m)) = _
    rw [rodar_rotacao hm]
    cases j with
    | zero =>
      simp [criarMatrizAux]
    | succ i =>
      have hm1 : 1 ≤ m := by omega
      have hmod : (m + s.length - 1) % s.length = m - 1 := by
        have : m + s.length - 1 = (m - 1) + s.length := by omega
        rw [this, Nat.add_mod_right]
        exact Nat.mod_eq_of_lt (by omega)
      rw [hmod, ih (m - 1) (by omega) (by omega)]
      have hr : List.range' (m + 1 - (i + 1 + 1)) (i + 1 + 1) =
          List.range' (m - 1 + 1 - (i + 1)) (i + 1) ++ [m] := by
        have h1 : m + 1 - (i + 1 + 1) = m - 1 + 1 - (i + 1) := by omega
        have h2 : m - 1 + 1 - (i + 1) + (i + 1) = m := by omega
        rw [h1, ← h2, List.range'_concat]
        congr 2
        omega
      rw [hr]
      simp

/-- `criarMatriz` of a non-empty sequence: the identity rotation followed by
the rotations `n-1, n-2, …, 1` in that order. -/
theorem criarMatriz_eq {s : List Char} (hs : s ≠ []) :
    criarMatriz s =
      rotacao s 0 :: ((List.range' 1 (s.length - 1)).map (rotacao s)).reverse := by
  have hn : 0 < s.length := List.length_pos.mpr hs
  obtain ⟨m, hm⟩ : ∃ m, s.length = m + 1 := ⟨s.length - 1, by omega⟩
  unfold criarMatriz
  rw [hm]
  show s :: criarMatrizAux m (rodarDireita s) = _
  have h1 : rodarDireita s = rotacao s (s.length - 1) := rfl
  have h2 : s.length - 1 = m := by omega
  rw [h1, h2]
  cases m with
  | zero => simp [criarMatrizAux, rotacao_zero]
  | succ i =>
    rw [criarMatrizAux_desc (i + 1) (i + 1) (by omega) (by omega), rotacao_zero,
      Nat.add_sub_cancel_left]
    norm_num

/-- The rows of `criarMatriz s` are a permutation of all `n` rotations. -/
theorem criarMatriz_perm {s : List Char} (hs : s ≠ []) :
    (criarMatriz s).Perm ((List.range s.length).map (rotacao s)) := by
  have hn : 0 < s.length := List.length_pos.mpr hs
  rw [criarMatriz_eq hs]
  have hr : List.range s.length = 0 :: List.range' 1 (s.length - 1) := by
    rw [List.range_eq_range']
    have h : s.length = (s.length - 1) + 1 := by omega
    rw [h, List.range'_succ]
    simp
  rw [hr]
  simp only [List.map_cons]
  exact List.Perm.cons _ (List.reverse_perm _)


/-! ### Sequences with a unique final sentinel -/

theorem get?_getD {α : Type _} {l : List α} {i : Nat} (d : α) (h : i < l.length) :
    l.get? i = some (l.getD i d) := by
  rw [List.getD_eq_get?, List.get?_eq_get h]
  rfl

/-- In a sequence whose unique occurrence of `c0` is its final character,
`c0` occurs only at index `n - 1`. -/
theorem sentinela_pos {s : List Char} {c0 : Char}
    (hlast : s.getLast? = some c0) (hcount : s.count c0 = 1) :
    ∀ i, s.get? i = some c0 → i = s.length - 1 := by
  intro i hi
  have hs : s ≠ [] := by
    intro h
    rw [h] at hlast
    cases hlast
  have hlen : i < s.length := by
    by_contra hge
    rw [List.get?_eq_none.mpr (by omega)] at hi
    cases hi
  by_contra hne
  have hi2 : i < s.length - 1 := by omega
  have hsplit : s.dropLast ++ [s.getLast hs] = s := List.dropLast_append_getLast hs
  have hgl : s.getLast hs = c0 := by
    rw [List.getLast?_eq_getLast s hs] at hlast
    exact Option.some.inj hlast
  have hdl : s.dropLast.get? i = some c0 := by
    conv at hi => rw [← hsplit]
    rwa [List.get?_append (by rw [List.length_dropLast]; omega)] at hi
  have hmem : c0 ∈ s.dropLast := by
    rcases List.get?_eq_some.mp hdl with ⟨h, hget⟩
    exact hget ▸ List.get_mem _ _ _
  have hc : s.count c0 = s.dropLast.count c0 + 1 := by
    conv_lhs => rw [← hsplit]
    rw [List.count_append, hgl]
    simp
  have hpos : 0 < s.dropLast.count c0 := List.count_pos_iff.mpr hmem
  omega

/-- No suffix of a sequence with a unique final sentinel is a leading
block of another suffix. -/
theorem nao_prefixo {s : List Char} {c0 : Char}
    (hlast : s.getLast? = some c0) (hcount : s.count c0 = 1)
    {i j : Nat} (hij : i ≠ j) (hi : i < s.length) (hj : j < s.length) :
    (s.drop j).take (s.drop i).length ≠ s.drop i := by
  intro h
  have hlendrop : (s.drop i).length = s.length - i := List.length_drop i s
  have hle : s.length - i ≤ s.length - j := by
    have := congrArg List.length h
    rw [List.length_take, hlendrop, List.length_drop] at this
    omega
  have hji : j < i := by omega
  have h1 := congrArg (fun l => List.get? l (s.length - 1 - i)) h
  simp only [hlendrop] at h1
  rw [List.get?_take (by omega), List.get?_drop, List.get?_drop] at h1
  have h2 : s.get? (i + (s.length - 1 - i)) = some c0 := by
    have : i + (s.length - 1 - i) = s.length - 1 := by omega
    rw [this, ← List.getLast?_eq_get?]
    exact hlast
  rw [h2] at h1
  have h3 := sentinela_pos hlast hcount _ h1
  omega

/-- Rotations compare exactly as the suffixes they start with. -/
theorem lexLe_rotacao {s : List Char} {c0 : Char}
    (hlast : s.getLast? = some c0) (hcount : s.count c0 = 1)
    {i j : Nat} (hij : i ≠ j) (hi : i < s.length) (hj : j < s.length) :
    lexLe (rotacao s i) (rotacao s j) = lexLe (s.drop i) (s.drop j) :=
  lexLe_append_congr _ _ (nao_prefixo hlast hcount hij hi hj)
    (nao_prefixo hlast hcount (Ne.symm hij) hj hi)

/-! ### The suffix array -/

theorem suffix_array_perm (s : List Char) :
    (suffix_array s).Perm (List.range s.length) :=
  List.perm_insertionSort _ _

theorem suffix_array_length (s : List Char) :
    (suffix_array s).length = s.length := by
  rw [(suffix_array_perm s).length_eq, List.length_range]

theorem suffix_array_nodup (s : List Char) : (suffix_array s).Nodup :=
  ((suffix_array_perm s).nodup_iff).mpr (List.nodup_range _)

theorem suffix_array_mem {s : List Char} {k : Nat} :
    k ∈ suffix_array s ↔ k < s.length := by
  rw [(suffix_array_perm s).mem_iff, List.mem_range]

theorem suffix_array_sorted (s : List Char) :
    (suffix_array s).Pairwise (fun i j => lexLe (s.drop i) (s.drop j) = true) := by
  unfold suffix_array
  exact List.sorted_insertionSort (SufLeP s) (List.range s.length)

/-- The sorted rotation matrix is the suffix array read through `rotacao`:
the `i`-th sorted rotation starts at index `SA[i]`. -/
theorem matriz_ordenada_eq {s : List Char} {c0 : Char}
    (hlast : s.getLast? = some c0) (hcount : s.count c0 = 1) :
    ordenarMatriz (criarMatriz s) = (suffix_array s).map (rotacao s) := by
  have hs : s ≠ [] := by
    intro h
    rw [h] at hlast
    cases hlast
  refine @List.eq_of_perm_of_sorted _ LexLeP _ _ _ ?_ ?_ ?_
  · exact ((List.perm_insertionSort _ _).trans (criarMatriz_perm hs)).trans
      ((suffix_array_perm s).map (rotacao s)).symm
  · show List.Sorted _ (ordenarMatriz (criarMatriz s))
    unfold ordenarMatriz
    exact List.sorted_insertionSort LexLeP (criarMatriz s)
  · show ((suffix_array s).map (rotacao s)).Pairwise _
    rw [List.pairwise_map]
    have hp := (suffix_array_sorted s).and (suffix_array_nodup s)
    refine hp.imp_of_mem ?_
    intro a b ha hb hab
    have hal : a < s.length := suffix_array_mem.mp ha
    have hbl : b < s.length := suffix_array_mem.mp hb
    show lexLe (rotacao s a) (rotacao s b) = true
    rw [lexLe_rotacao hlast hcount hab.2 hal hbl]
    exact hab.1

/-- The last element of the rotation starting at `k`. -/
theorem getLast?_rotacao {s : List Char} (hs : s ≠ []) {k : Nat} (hk : k < s.length) :
    (rotacao s k).getLast? = s.get? ((k + s.length - 1) % s.length) := by
  have hn : 0 < s.length := List.length_pos.mpr hs
  cases k with
  | zero =>
    have h1 : (0 + s.length - 1) % s.length = s.length - 1 := by
      rw [Nat.zero_add]
      exact Nat.mod_eq_of_lt (by omega)
    rw [h1, rotacao_zero, List.getLast?_eq_get?]
  | succ j =>
    have hmod : (j + 1 + s.length - 1) % s.length = j := by
      have h : j + 1 + s.length - 1 = j + s.length := by omega
      rw [h, Nat.add_mod_right]
      exact Nat.mod_eq_of_lt (by omega)
    rw [hmod]
    unfold rotacao
    rw [List.getLast?_append]
    have htne : (s.take (j + 1)).getLast? = s.get? j := by
      rw [List.getLast?_eq_get?, List.length_take]
      have h2 : min (j + 1) s.length - 1 = j := by omega
      rw [h2, List.get?_take (by omega)]
    rw [htne, List.get?_eq_get (by omega)]
    rfl

/-! ### The BWT string of the sorted matrix -/

/-- `construirBWT` over a list of rotations picks the character preceding
each start index, cyclically. -/
theorem construirBWT_rotacoes {s : List Char} (hs : s ≠ []) {ks : List Nat}
    (hks : ∀ k ∈ ks, k < s.length) :
    construirBWT (ks.map (rotacao s)) =
      some (ks.map (fun k => s.getD ((k + s.length - 1) % s.length) ' ')) := by
  induction ks with
  | nil => rfl
  | cons k ks ih =>
    have hk : k < s.length := hks k (List.mem_cons_self _ _)
    have hn : 0 < s.length := List.length_pos.mpr hs
    simp only [List.map_cons]
    unfold construirBWT
    rw [List.mapM_cons]
    rw [getLast?_rotacao hs hk, get?_getD ' ' (Nat.mod_lt _ hn)]
    have ih2 := ih (fun x hx => hks x (List.mem_cons_of_mem _ hx))
    unfold construirBWT at ih2
    rw [ih2]
    rfl

/-- `construirBWT` succeeds on any matrix of non-empty rows. -/
theorem construirBWT_ne_nil {m : List (List Char)} (hm : ∀ r ∈ m, r ≠ []) :
    construirBWT m = some (m.map (fun r => (r.getLast?).getD ' ')) := by
  induction m with
  | nil => rfl
  | cons r m ih =>
    have hr : r ≠ [] := hm r (List.mem_cons_self _ _)
    obtain ⟨x, hx⟩ : ∃ x, r.getLast? = some x := by
      cases h : r.getLast? with
      | none =>
        have h2 := List.getLast?_isSome.mpr hr
        rw [h] at h2
        cases h2
      | some x => exact ⟨x, rfl⟩
    unfold construirBWT
    rw [List.mapM_cons, hx]
    have ih2 := ih (fun x hx => hm x (List.mem_cons_of_mem _ hx))
    unfold construirBWT at ih2
    rw [ih2]
    simp [hx]

/-- The cyclic index shift `(k + n - 1) % n` enumerates `n-1, 0, 1, …, n-2`
over `range n`. -/
theorem mod_shift_range {n : Nat} (hn : 0 < n) :
    (List.range n).map (fun k => (k + n - 1) % n) = (n - 1) :: List.range (n - 1) := by
  apply List.ext
  intro i
  rw [List.get?_map]
  cases i with
  | zero =>
    rw [List.get?_range hn]
    have h : (0 + n - 1) % n = n - 1 := by
      rw [Nat.zero_add]
      exact Nat.mod_eq_of_lt (by omega)
    show some ((0 + n - 1) % n) = some (n - 1)
    rw [h]
  | succ i =>
    show ((List.range n).get? (i + 1)).map _ = (List.range (n - 1)).get? i
    by_cases hi : i + 1 < n
    · rw [List.get?_range hi, List.get?_range (by omega)]
      have h : (i + 1 + n - 1) % n = i := by
        have h2 : i + 1 + n - 1 = i + n := by omega
        rw [h2, Nat.add_mod_right]
        exact Nat.mod_eq_of_lt (by omega)
      show some ((i + 1 + n - 1) % n) = some i
      rw [h]
    · rw [List.get?_eq_none.mpr (by simpa using by omega),
        List.get?_eq_none.mpr (by simpa using by omega)]
      rfl

/-- Reading every index of `s` through `getD` gives back `s`. -/
theorem map_getD_range (s : List Char) :
    (List.range s.length).map (fun i => s.getD i ' ') = s := by
  apply List.ext
  intro i
  rw [List.get?_map]
  by_cases hi : i < s.length
  · rw [List.get?_range hi]
    show some (s.getD i ' ') = s.get? i
    exact (get?_getD ' ' hi).symm
  · rw [List.get?_eq_none.mpr (by simpa using by omega),
      List.get?_eq_none.mpr (by omega)]
    rfl

/-- The multiset of final characters of all rotations is the multiset of
characters of the sequence itself. -/
theorem ultimos_rotacoes_perm {s : List Char} (hs : s ≠ []) :
    ((List.range s.length).map
      (fun k => s.getD ((k + s.length - 1) % s.length) ' ')).Perm s := by
  have hn : 0 < s.length := List.length_pos.mpr hs
  have h1 : (List.range s.length).map
      (fun k => s.getD ((k + s.length - 1) % s.length) ' ')
      = ((List.range s.length).map (fun k => (k + s.length - 1) % s.length)).map
        (fun i => s.getD i ' ') := by
    rw [List.map_map]
    rfl
  rw [h1, mod_shift_range hn]
  have h2 : ((s.length - 1) :: List.range (s.length - 1)).Perm (List.range s.length) := by
    have h3 : List.range s.length = List.range (s.length - 1) ++ [s.length - 1] := by
      have h4 : s.length = (s.length - 1) + 1 := by omega
      conv_lhs => rw [h4]
      exact List.range_succ _
    rw [h3]
    exact (List.perm_append_singleton _ _).symm
  have h5 := h2.map (fun i => s.getD i ' ')
  rw [map_getD_range] at h5
  exact h5

/-- The BWT construction succeeds on every input and permutes it. -/
theorem construirBWT_permutacao (s : List Char) :
    ∃ b, construirBWT (ordenarMatriz (criarMatriz s)) = some b ∧
      b.Perm s ∧ b.length = s.length := by
  by_cases hs : s = []
  · subst hs
    refine ⟨[], ?_, List.Perm.refl _, rfl⟩
    show construirBWT (ordenarMatriz (criarMatriz [])) = some []
    rfl
  · have hne : ∀ r ∈ ordenarMatriz (criarMatriz s), r ≠ [] := by
      intro r hr
      have hr2 : r ∈ criarMatriz s :=
        (List.perm_insertionSort LexLeP (criarMatriz s)).mem_iff.mp hr
    

      have hlen := criarMatrizAux_mem_length r hr2
      intro hnil
      rw [hnil] at hlen
      exact hs (List.length_eq_zero.mp hlen.symm)
    refine ⟨_, construirBWT_ne_nil hne, ?_, ?_⟩
    · have hperm : (ordenarMatriz (criarMatriz s)).Perm
          ((List.range s.length).map (rotacao s)) :=
        (List.perm_insertionSort _ _).trans (criarMatriz_perm hs)
      have hmap := hperm.map (fun r => (r.getLast?).getD ' ')
      have heq : ((List.range s.length).map (rotacao s)).map
          (fun r => (r.getLast?).getD ' ')
          = (List.range s.length).map
            (fun k => s.getD ((k + s.length - 1) % s.length) ' ') := by
        rw [List.map_map]
        apply List.map_congr_left
        intro k hk
        show ((rotacao s k).getLast?).getD ' ' = _
        rw [getLast?_rotacao hs (List.mem_range.mp hk)]
        rw [get?_getD ' ' (Nat.mod_lt _ (List.length_pos.mpr hs))]
        rfl
      rw [heq] at hmap
      exact hmap.trans (ultimos_rotacoes_perm hs)
    · rw [List.length_map]
      unfold ordenarMatriz
      rw [(List.perm_insertionSort _ _).length_eq]
      unfold criarMatriz
      exact criarMatrizAux_length _ _

/-- **C7 (amended).** BWT/SA linkage: for every sequence carrying a unique
lexicographically minimal sentinel *at its final position*, the BWT built
from the sorted rotation matrix and the independently built suffix array
satisfy `bwt[i] == sequence[(SA[i] - 1 + n) mod n]` for every `i < n`. -/
theorem claimC7_ligacao_bwt_sa {s : List Char} {c0 : Char}
    (hlast : s.getLast? = some c0) (hcount : s.count c0 = 1)
    (hmin : ∀ c ∈ s, c0 ≤ c) :
    ∃ bwt, construirBWT (ordenarMatriz (criarMatriz s)) = some bwt ∧
      ∀ i, i < s.length →
        bwt.get? i =
          s.get? (((suffix_array s).getD i 0 + s.length - 1) % s.length) := by
  have hs : s ≠ [] := by
    intro h
    rw [h] at hlast
    cases hlast
  have hn : 0 < s.length := List.length_pos.mpr hs
  rw [matriz_ordenada_eq hlast hcount]
  rw [construirBWT_rotacoes hs (fun k hk => suffix_array_mem.mp hk)]
  refine ⟨_, rfl, ?_⟩
  intro i hi
  have hisa : i < (suffix_array s).length := by
    rw [suffix_array_length]
    exact hi
  rw [List.get?_map, get?_getD 0 hisa]
  show some (s.getD (((suffix_array s).getD i 0 + s.length - 1) % s.length) ' ') = _
  exact (get?_getD ' ' (Nat.mod_lt _ hn)).symm

/-- Witness for C7 at the worked example `"TAGACAGAGA$"`. -/
theorem claimC7_testemunha :
    (("TAGACAGAGA$".data.getLast? = some '$') ∧
      "TAGACAGAGA$".data.count '$' = 1 ∧
      ∀ c ∈ "TAGACAGAGA$".data, '$' ≤ c) ∧
    (∃ bwt, construirBWT (ordenarMatriz (criarMatriz "TAGACAGAGA$".data)) = some bwt ∧
      ∀ i, i < "TAGACAGAGA$".data.length →
        bwt.get? i =
          "TAGACAGAGA$".data.get?
            (((suffix_array "TAGACAGAGA$".data).getD i 0 +
              "TAGACAGAGA$".data.length - 1) % "TAGACAGAGA$".data.length)) :=
  ⟨⟨by decide, by decide, by decide⟩,
    @claimC7_ligacao_bwt_sa "TAGACAGAGA$".data '$'
      (by decide) (by decide) (by decide)⟩

/-- Counterexample to C7 as literally stated: `"a$ba"` carries a unique
lexicographically minimal sentinel (`'$'`, not at the final position), yet
the BWT/SA linkage fails at index 1. -/
theorem claimC7_contraexemplo :
    ("a$ba".data.count '$' = 1 ∧ ∀ c ∈ "a$ba".data, '$' ≤ c) ∧
    construirBWT (ordenarMatriz (criarMatriz "a$ba".data)) = some "aab$".data ∧
    suffix_array "a$ba".data = [1, 3, 0, 2] ∧
    ¬ ("aab$".data.get? 1 =
        "a$ba".data.get?
          (((suffix_array "a$ba".data).getD 1 0 + "a$ba".data.length - 1) %
            "a$ba".data.length)) := by
  refine ⟨⟨by decide, by decide⟩, ?_, ?_, ?_⟩
  · decide
  · decide
  · decide

/-- **C8.** Permutation invariant: for every input sequence (no sentinel
precondition) building the rotations, sorting them and concatenating their
last characters succeeds and yields a permutation of the input, of the
same length. -/
theorem claimC8_permutacao (s : List Char) :
    ∃ b, construirBWT (ordenarMatriz (criarMatriz s)) = some b ∧
      b.Perm s ∧ b.length = s.length :=
  construirBWT_permutacao s

/-! ### Error-handling behaviour at concrete inputs -/

/-- **C3.** Evaluating the code at the failing input: over
`"TAGACAGAGA$"` (with the suffix array built), searching for `"XYZ"` — a
pattern whose symbols are absent from the indexed alphabet — evaluates
`count[symbol]` on a missing key and raises `KeyError` (modelled `none`);
it does not return the empty list as the claim states. -/
theorem claimC3_simbolo_desconhecido :
    procuraPadraoBWT
      ⟨"TAGACAGAGA$".data, [], some (suffix_array "TAGACAGAGA$".data)⟩
      "XYZ".data = none ∧
    procuraPadraoBWT
      ⟨"TAGACAGAGA$".data, [], some (suffix_array "TAGACAGAGA$".data)⟩
      "XYZ".data ≠ some [] := by
  constructor
  · decide
  · decide

/-- **C4.** Evaluating the code at the failing input: `"AA"` contains no
sentinel, yet `criarMatriz` returns its rotation list and `suffix_array`
returns a sorted index list; neither rejects the input, and no
`InvalidSequenceError` exists anywhere in the source. -/
theorem claimC4_sem_validacao :
    criarMatriz ('A' :: 'A' :: []) =
      (('A' :: 'A' :: []) :: ('A' :: 'A' :: []) :: []) ∧
    suffix_array ('A' :: 'A' :: []) = [1, 0] := by
  constructor
  · decide
  · decide

/-- **C5.** Evaluating the code at the failing input: inverting the BWT
string `"AA"`, which contains no sentinel occurrence, never terminates —
for every recursion budget the walk makes no progress (each scan finds no
tag `('$', 0)` and recurses on an unchanged state), so the source's
unbounded recursion runs forever instead of raising a typed
`ReconstructionError`. -/
theorem claimC5_reconstrucao_diverge :
    ∀ fuel, inverter fuel '$' ('A' :: 'A' :: []) = none := by
  intro fuel
  induction fuel with
  | zero => rfl
  | succ n ih => exact ih

/-- Unfolding equation of the search loop at a non-empty pattern. -/
theorem pesquisaFM_cons (bwt sorted_bwt : List Char) (saAttr : Option (List Nat))
    (symbol : Char) (resto : List Char) (top bottom : Int) :
    pesquisaFM bwt sorted_bwt saAttr (symbol :: resto) top bottom =
      if top ≤ bottom then
        (if symbol ∈ bwt then
          (if countPrefixo bwt symbol (bottom + 1).toNat >
              countPrefixo bwt symbol top.toNat then
            pesquisaFM bwt sorted_bwt saAttr resto
              (sorted_bwt.indexOf symbol + countPrefixo bwt symbol top.toNat)
              (sorted_bwt.indexOf symbol +
                countPrefixo bwt symbol (bottom + 1).toNat - 1)
          else some [])
        else none)
      else some [] := rfl

/-- Unfolding equation of the search loop at the exhausted pattern. -/
theorem pesquisaFM_nil (bwt sorted_bwt : List Char) (saAttr : Option (List Nat))
    (top bottom : Int) :
    pesquisaFM bwt sorted_bwt saAttr [] top bottom =
      if top ≤ bottom then
        (match saAttr with
        | none => none
        | some sa =>
          match (List.range' top.toNat ((bottom + 1 - top).toNat)).mapM sa.get? with
          | none => none
          | some offsets => some (offsets.insertionSort (· ≤ ·)))
      else some [] := rfl

/-- On an instance whose `suffix_array` attribute is still the bound
method, the search loop can only end in an exception (`none`) or in the
empty list: every path that survives narrowing indexes the attribute and
fails. -/
theorem pesquisaFM_sem_sa (bwt sorted_bwt : List Char) :
    ∀ revPattern top bottom,
      pesquisaFM bwt sorted_bwt none revPattern top bottom = none ∨
      pesquisaFM bwt sorted_bwt none revPattern top bottom = some [] := by
  intro revPattern
  induction revPattern with
  | nil =>
    intro top bottom
    rw [pesquisaFM_nil]
    by_cases h : top ≤ bottom
    · rw [if_pos h]
      exact Or.inl rfl
    · rw [if_neg h]
      exact Or.inr rfl
  | cons symbol resto ih =>
    intro top bottom
    rw [pesquisaFM_cons]
    by_cases h : top ≤ bottom
    · rw [if_pos h]
      by_cases hmem : symbol ∈ bwt
      · rw [if_pos hmem]
        by_cases hcnt : countPrefixo bwt symbol (bottom + 1).toNat >
            countPrefixo bwt symbol top.toNat
        · rw [if_pos hcnt]
          exact ih _ _
        · rw [if_neg hcnt]
          exact Or.inr rfl
      · rw [if_neg hmem]
        exact Or.inl rfl
    · rw [if_neg h]
      exact Or.inr rfl

/-- **C9.** Implicit interface precondition: on a fresh instance the
`suffix_array` attribute is still the bound method, so `procuraPadraoBWT`
can never produce a non-empty offset list (every search either raises,
modelled `none`, or dies in narrowing with `[]`); calling `suffix_array`
once rebinds the attribute to the resulting list, after which the method
can no longer be invoked on that instance (`TypeError`, modelled
`none`). -/
theorem claimC9_precondicao_atributo :
    (∀ S P, procuraPadraoBWT ⟨S, [], none⟩ P = none ∨
        procuraPadraoBWT ⟨S, [], none⟩ P = some []) ∧
    (∀ S seq, chamarSuffixArray (init S) seq =
        some (suffix_array seq, ⟨S, [], some (suffix_array seq)⟩)) ∧
    (∀ S l sa seq, chamarSuffixArray ⟨S, l, some sa⟩ seq = none) := by
  refine ⟨?_, fun S seq => rfl, fun S l sa seq => rfl⟩
  intro S P
  unfold procuraPadraoBWT
  cases construirBWT (ordenarMatriz (criarMatriz S)) with
  | none => exact Or.inl rfl
  | some bwt => exact pesquisaFM_sem_sa _ _ _ _ _

/-- More fuel never changes a reconstruction that already finished. -/
theorem obterSequenciaOriginal_mono :
    ∀ (f g : Nat), f ≤ g → ∀ letra comp prim ult acc r,
      obterSequenciaOriginal f letra comp prim ult acc = some r →
      obterSequenciaOriginal g letra comp prim ult acc = some r := by
  intro f
  induction f with
  | zero =>
    intro g _ letra comp prim ult acc r h
    cases h
  | succ f ih =>
    intro g hg letra comp prim ult acc r h
    obtain ⟨g', rfl⟩ : ∃ g', g = g' + 1 := ⟨g - 1, by omega⟩
    unfold obterSequenciaOriginal at h ⊢
    cases hp : obterPassagem prim comp letra acc 0 ult with
    | none => rw [hp] at h; cases h
    | some x =>
      rw [hp] at h
      cases x with
      | inl feito => exact h
      | inr cont => exact ih g' (by omega) _ _ _ _ _ _ h

/-- More fuel never changes an inversion that already finished. -/
theorem inverter_mono {f g : Nat} (hfg : f ≤ g) {sent : Char} {bwt r : List Char}
    (h : inverter f sent bwt = some r) : inverter g sent bwt = some r := by
  unfold inverter at h ⊢
  rcases Option.map_eq_some'.mp h with ⟨l, hl, rfl⟩
  simp only [obterSequenciaOriginal_mono f g hfg _ _ _ _ _ _ hl]
  rfl

/-- Counterexample to C1 as literally stated: `"a$ba"` contains exactly
one sentinel symbol (`'$'`, lexicographically smallest, but not final);
its BWT is `"aab$"`, and inverting that BWT yields `"baa$"` — never
`"a$ba"` — for every recursion budget. -/
theorem claimC1_contraexemplo :
    ("a$ba".data.count '$' = 1 ∧ ∀ c ∈ "a$ba".data, '$' ≤ c) ∧
    construirBWT (ordenarMatriz (criarMatriz "a$ba".data)) = some "aab$".data ∧
    (∀ fuel, inverter fuel '$' "aab$".data ≠ some "a$ba".data) := by
  refine ⟨⟨by decide, by decide⟩, by decide, ?_⟩
  intro fuel
  by_cases h4 : 4 ≤ fuel
  · have h := inverter_mono h4 (show inverter 4 '$' "aab$".data = some "baa$".data by decide)
    rw [h]
    decide
  · interval_cases fuel
    · decide
    · decide
    · decide
    · decide

/-- Counterexample to C2 as literally stated: over `S = "AB$"` (exactly
one sentinel, even at the final position) the pattern `"$A"` — of length
2 ≤ 3 — wraps around the rotation boundary: the search returns `[2]`
although the brute-force oracle finds no occurrence. -/
theorem claimC2_contraexemplo :
    ("AB$".data.getLast? = some '$' ∧ "AB$".data.count '$' = 1 ∧
      ∀ c ∈ "AB$".data, '$' ≤ c) ∧
    "$A".data.length ≤ "AB$".data.length ∧
    procuraPadraoBWT ⟨"AB$".data, [], some (suffix_array "AB$".data)⟩
      "$A".data = some [2] ∧
    ocorrenciasForcaBruta "AB$".data "$A".data = [] := by
  refine ⟨⟨by decide, by decide, by decide⟩, by decide, by decide, by decide⟩

/-! ### Rank tagging -/

theorem decidirCaracter_keys (d : DicionarioOcorrencias) (item chave : Char)
    (lista : List Etiqueta) :
    (decidirCaracter d item chave lista).1.keys = d.keys := by
  unfold decidirCaracter
  split
  · rfl
  · rfl

/-- One inner `for chave in keys` loop: with distinct keys, exactly the
matching key acts. -/
theorem foldl_decidir (ks : List Char) (hnd : ks.Nodup)
    (d : DicionarioOcorrencias) (item : Char) (lista : List Etiqueta) :
    ks.foldl (fun st2 chave => decidirCaracter st2.1 item chave st2.2) (d, lista) =
      if item ∈ ks then
        (⟨d.keys, fun c => if c = item then d.val item + 1 else d.val c⟩,
          lista ++ [(item, d.val item + 1)])
      else (d, lista) := by
  induction ks generalizing d lista with
  | nil => simp
  | cons k ks ih =>
    rw [List.foldl_cons]
    by_cases hik : item = k
    · subst hik
      have hstep : decidirCaracter d item item lista =
          (⟨d.keys, fun c => if c = item then d.val item + 1 else d.val c⟩,
            lista ++ [(item, d.val item + 1)]) := by
        unfold decidirCaracter
        rw [if_pos rfl]
      rw [hstep]
      have hni : item ∉ ks := (List.nodup_cons.mp hnd).1
      rw [ih (List.nodup_cons.mp hnd).2 _ _, if_neg hni,
        if_pos (List.mem_cons_self _ _)]
    · have hstep : decidirCaracter d item k lista = (d, lista) := by
        unfold decidirCaracter
        rw [if_neg hik]
      rw [hstep, ih (List.nodup_cons.mp hnd).2 _ _]
      by_cases hmem : item ∈ ks
      · rw [if_pos hmem, if_pos (List.mem_cons_of_mem _ hmem)]
      · rw [if_neg hmem, if_neg (by simp [hik, hmem])]

/-- The main loop of `preencherLista`: starting from counters recording
`vistos` (each value one less than the count seen), it appends exactly the
rank tags of the column and preserves the key list. -/
theorem preencher_principal (col : List Char) :
    ∀ (vistos : List Char) (d : DicionarioOcorrencias) (lista : List Etiqueta),
      d.keys.Nodup → (∀ c ∈ col, c ∈ d.keys) →
      (∀ c ∈ d.keys, d.val c = (vistos.count c : Int) - 1) →
      ∃ v, col.foldl
          (fun st item =>
            st.1.keys.foldl (fun st2 chave => decidirCaracter st2.1 item chave st2.2) st)
          (d, lista) =
        (⟨d.keys, v⟩, lista ++ etiquetarColunaAux vistos col) := by
  induction col with
  | nil =>
    intro vistos d lista _ _ _
    exact ⟨d.val, by simp [etiquetarColunaAux]⟩
  | cons c col ih =>
    intro vistos d lista hnd hsub hval
    rw [List.foldl_cons]
    have hc : c ∈ d.keys := hsub c (List.mem_cons_self _ _)
    rw [foldl_decidir d.keys hnd d c lista, if_pos hc]
    have hvc : d.val c + 1 = (vistos.count c : Int) := by
      rw [hval c hc]
      omega
    have hinv : ∀ x ∈ d.keys,
        (if x = c then d.val c + 1 else d.val x) =
          ((vistos ++ [c]).count x : Int) - 1 := by
      intro x hx
      rw [List.count_append]
      by_cases hxc : x = c
      · subst hxc
        rw [if_pos rfl, hval x hx]
        simp
      · rw [if_neg hxc, hval x hx]
        have : List.count x [c] = 0 := by
          simp [List.count_singleton']
          exact fun h => hxc h.symm
        omega
    obtain ⟨v, hv⟩ := ih (vistos ++ [c])
      ⟨d.keys, fun x => if x = c then d.val c + 1 else d.val x⟩
      (lista ++ [(c, d.val c + 1)]) hnd
      (fun x hx => hsub x (List.mem_cons_of_mem _ hx)) hinv
    refine ⟨v, ?_⟩
    rw [hv]
    show _ = (_, lista ++ ((c, (vistos.count c : Int)) :: etiquetarColunaAux (vistos ++ [c]) col))
    rw [← hvc]
    simp

/-- The reset loop of `preencherLista` sets every key to `-1` and keeps
the key list. -/
theorem foldl_reset (ks : List Char) (d : DicionarioOcorrencias) :
    (ks.foldl (fun dd chave =>
        (⟨dd.keys, fun c => if c = chave then -1 else dd.val c⟩ : DicionarioOcorrencias))
      d).keys = d.keys ∧
    ∀ c, (ks.foldl (fun dd chave =>
        (⟨dd.keys, fun c => if c = chave then -1 else dd.val c⟩ : DicionarioOcorrencias))
      d).val c = if c ∈ ks then -1 else d.val c := by
  induction ks generalizing d with
  | nil => simp
  | cons k ks ih =>
    rw [List.foldl_cons]
    obtain ⟨ihk, ihv⟩ := ih ⟨d.keys, fun c => if c = k then -1 else d.val c⟩
    refine ⟨ihk, ?_⟩
    intro c
    rw [ihv c]
    by_cases hmem : c ∈ ks
    · rw [if_pos hmem, if_pos (List.mem_cons_of_mem _ hmem)]
    · rw [if_neg hmem]
      by_cases hck : c = k
      · subst hck
        simp
      · simp [hck, hmem]

theorem foldl_decidir_keys (ks : List Char) :
    ∀ (st : DicionarioOcorrencias × List Etiqueta) (item : Char),
      (ks.foldl (fun st2 chave => decidirCaracter st2.1 item chave st2.2) st).1.keys
        = st.1.keys := by
  induction ks with
  | nil => intro st item; rfl
  | cons k ks ih =>
    intro st item
    rw [List.foldl_cons, ih]
    exact decidirCaracter_keys _ _ _ _

theorem preencher_keys_geral (col : List Char) :
    ∀ (st : DicionarioOcorrencias × List Etiqueta),
      (col.foldl
        (fun st item =>
          st.1.keys.foldl (fun st2 chave => decidirCaracter st2.1 item chave st2.2) st)
        st).1.keys = st.1.keys := by
  induction col with
  | nil => intro st; rfl
  | cons c col ih =>
    intro st
    rw [List.foldl_cons, ih]
    exact foldl_decidir_keys _ _ _

/-- After any call to `preencherLista`, every dictionary value is `-1`. -/
theorem preencherLista_reset (d : DicionarioOcorrencias) (col : List Char)
    (acc : List Etiqueta) :
    ∀ c ∈ (preencherLista d col acc).1.keys, (preencherLista d col acc).1.val c = -1 := by
  intro c hc
  unfold preencherLista at hc ⊢
  obtain ⟨hk, hv⟩ := foldl_reset
    (col.foldl (fun st item =>
      st.1.keys.foldl (fun st2 chave => decidirCaracter st2.1 item chave st2.2) st)
      (d, acc)).1.keys
    (col.foldl (fun st item =>
      st.1.keys.foldl (fun st2 chave => decidirCaracter st2.1 item chave st2.2) st)
      (d, acc)).1
  rw [hv c, if_pos]
  rwa [hk] at hc

theorem etiquetarColunaAux_length :
    ∀ (col vistos : List Char), (etiquetarColunaAux vistos col).length = col.length := by
  intro col
  induction col with
  | nil => intro vistos; rfl
  | cons c col ih => intro vistos; simp [etiquetarColunaAux, ih]

theorem etiquetarColunaAux_get? :
    ∀ (col vistos : List Char) (j : Nat), j < col.length →
      (etiquetarColunaAux vistos col).get? j =
        some (col.getD j ' ', (((vistos ++ col.take j).count (col.getD j ' ')) : Int)) := by
  intro col
  induction col with
  | nil => intro vistos j hj; cases hj
  | cons c col ih =>
    intro vistos j hj
    cases j with
    | zero => simp [etiquetarColunaAux]
    | succ j =>
      show (etiquetarColunaAux (vistos ++ [c]) col).get? j = _
      rw [ih (vistos ++ [c]) j (by simpa using Nat.lt_of_succ_lt_succ hj)]
      simp [List.append_assoc]

theorem etiquetar_mem_count :
    ∀ (col vistos : List Char) (t : Etiqueta), t ∈ etiquetarColunaAux vistos col →
      (vistos.count t.1 : Int) ≤ t.2 := by
  intro col
  induction col with
  | nil => intro vistos t ht; cases ht
  | cons c col ih =>
    intro vistos t ht
    rcases List.mem_cons.mp ht with rfl | ht
    · simp
    · have := ih (vistos ++ [c]) t ht
      rw [List.count_append] at this
      have h2 : (vistos.count t.1 : Int) ≤ ((vistos.count t.1 : Nat) : Int) +
          (List.count t.1 [c] : Int) := by
        have : (0 : Int) ≤ (List.count t.1 [c] : Int) := Int.ofNat_nonneg _
        omega
      omega

theorem etiquetarColunaAux_nodup :
    ∀ (col vistos : List Char), (etiquetarColunaAux vistos col).Nodup := by
  intro col
  induction col with
  | nil => intro vistos; exact List.nodup_nil
  | cons c col ih =>
    intro vistos
    rw [etiquetarColunaAux, List.nodup_cons]
    refine ⟨?_, ih _⟩
    intro hmem
    have := etiquetar_mem_count col (vistos ++ [c]) _ hmem
    simp [List.count_append] at this

/-- The full content of `preencherLista` on a dictionary whose counters
all stand at `-1`: it appends exactly the rank tags of the column and
keeps the key list. -/
theorem preencherLista_etiquetas (d : DicionarioOcorrencias) (col : List Char)
    (acc : List Etiqueta) (hnd : d.keys.Nodup)
    (hval : ∀ c ∈ d.keys, d.val c = -1) (hsub : ∀ c ∈ col, c ∈ d.keys) :
    (preencherLista d col acc).2 = acc ++ etiquetarColuna col ∧
    (preencherLista d col acc).1.keys = d.keys := by
  obtain ⟨v, hv⟩ := preencher_principal col [] d acc hnd hsub
    (fun c hc => by rw [hval c hc]; rfl)
  unfold preencherLista
  rw [hv]
  constructor
  · rfl
  · exact (foldl_reset _ _).1

/-- **C10.** Shared-counter reset invariant: `preencherLista` always
leaves every dictionary value at `-1`; on a column over the dictionary's
alphabet it appends, for the `j`-th position holding symbol `c`, the tag
of `c` with the 0-based count of prior occurrences of `c` in that column
alone, and a repeated call on the resulting dictionary appends the same
tags again; the tag list has the length of the column and its tags are
pairwise distinct. -/
theorem claimC10_reinicio_contador :
    (∀ d col acc, ∀ c ∈ (preencherLista d col acc).1.keys,
        (preencherLista d col acc).1.val c = -1) ∧
    (∀ d col acc, d.keys.Nodup → (∀ c ∈ d.keys, d.val c = -1) →
      (∀ c ∈ col, c ∈ d.keys) →
      (preencherLista d col acc).2 = acc ++ etiquetarColuna col ∧
      (preencherLista (preencherLista d col acc).1 col acc).2 =
        acc ++ etiquetarColuna col) ∧
    (∀ col j, j < col.length →
      (etiquetarColuna col).get? j =
        some (col.getD j ' ', (((col.take j).count (col.getD j ' ')) : Int))) ∧
    (∀ col, (etiquetarColuna col).length = col.length ∧
      (etiquetarColuna col).Nodup) := by
  refine ⟨preencherLista_reset, ?_, ?_, ?_⟩
  · intro d col acc hnd hval hsub
    obtain ⟨h1, hk⟩ := preencherLista_etiquetas d col acc hnd hval hsub
    refine ⟨h1, ?_⟩
    have hval2 : ∀ c ∈ (preencherLista d col acc).1.keys,
        (preencherLista d col acc).1.val c = -1 := preencherLista_reset d col acc
    obtain ⟨h2, _⟩ := preencherLista_etiquetas (preencherLista d col acc).1 col acc
      (by rwa [hk]) hval2 (by rw [hk]; exact hsub)
    exact h2
  · intro col j hj
    have := etiquetarColunaAux_get? col [] j hj
    simpa [etiquetarColuna] using this
  · intro col
    exact ⟨etiquetarColunaAux_length col [], etiquetarColunaAux_nodup col []⟩

/-- Witness for C10 on the dictionary and first column of the worked
example's BWT string. -/
theorem claimC10_testemunha :
    ((criarDicionarioOcorrencias "aab$".data).keys.Nodup ∧
      (∀ c ∈ (criarDicionarioOcorrencias "aab$".data).keys,
        (criarDicionarioOcorrencias "aab$".data).val c = -1) ∧
      (∀ c ∈ criarPrimeiraColuna "aab$".data,
        c ∈ (criarDicionarioOcorrencias "aab$".data).keys)) ∧
    (preencherLista (criarDicionarioOcorrencias "aab$".data)
        (criarPrimeiraColuna "aab$".data) []).2 =
      [] ++ etiquetarColuna (criarPrimeiraColuna "aab$".data) :=
  ⟨⟨by decide, by decide, by decide⟩,
    (claimC10_reinicio_contador.2.1 (criarDicionarioOcorrencias "aab$".data)
      (criarPrimeiraColuna "aab$".data) [] (by decide) (by decide) (by decide)).1⟩

/-- Reading every index of a list through `get?` with `mapM` succeeds and
returns the corresponding suffix. -/
theorem mapM_get?_range' {α : Type _} (l : List α) :
    ∀ (m a : Nat), a + m = l.length →
      (List.range' a m).mapM l.get? = some (l.drop a) := by
  intro m
  induction m with
  | zero =>
    intro a ha
    have : a = l.length := by omega
    subst this
    rw [List.drop_length]
    rfl
  | succ m ih =>
    intro a ha
    rw [List.range'_succ, List.mapM_cons]
    have ha2 : a < l.length := by omega
    rw [List.get?_eq_get ha2, ih (a + 1) (by omega)]
    show some (l.get ⟨a, ha2⟩ :: l.drop (a + 1)) = some (l.drop a)
    rw [← List.drop_eq_get_cons ha2]

/-- **C6.** Empty-pattern contract: over any sequence with exactly one
sentinel (after `suffix_array` has been built), searching the empty
pattern performs no narrowing (the loop returns at once from
`top = 0, bottom = n - 1`) and yields all `n` offsets in ascending
order. -/
theorem claimC6_padrao_vazio (S : List Char) (sent : Char)
    (hsent : S.count sent = 1) :
    procuraPadraoBWT ⟨S, [], some (suffix_array S)⟩ [] =
      some (List.range S.length) := by
  have hS : S ≠ [] := by
    intro h
    subst h
    simp at hsent
  have hn : 0 < S.length := List.length_pos.mpr hS
  obtain ⟨b, hb, hperm, hblen⟩ := construirBWT_permutacao S
  unfold procuraPadraoBWT
  rw [hb]
  show pesquisaFM b (b.insertionSort (· ≤ ·)) (some (suffix_array S))
    (List.reverse []) 0 ((b.length : Int) - 1) = some (List.range S.length)
  rw [List.reverse_nil, pesquisaFM_nil, if_pos (by rw [hblen]; omega)]
  have hidx : List.range' (0 : Int).toNat (((b.length : Int) - 1 + 1 - 0).toNat)
      = List.range S.length := by
    have h1 : ((b.length : Int) - 1 + 1 - 0) = (S.length : Int) := by
      rw [hblen]
      ring
    rw [h1]
    rw [List.range_eq_range']
    norm_num
  have hmapM : (List.range S.length).mapM (suffix_array S).get?
      = some (suffix_array S) := by
    have h2 := mapM_get?_range' (suffix_array S) (suffix_array S).length 0 (by omega)
    rw [suffix_array_length] at h2
    rw [List.range_eq_range']
    simpa using h2
  show (match (List.range' (0 : Int).toNat (((b.length : Int) - 1 + 1 - 0).toNat)).mapM
      (suffix_array S).get? with
    | none => none
    | some offsets => some (offsets.insertionSort (· ≤ ·))) = some (List.range S.length)
  rw [hidx, hmapM]
  show some ((suffix_array S).insertionSort (· ≤ ·)) = some (List.range S.length)
  congr 1
  refine @List.eq_of_perm_of_sorted _ ((· ≤ ·) : Nat → Nat → Prop) _ _ _ ?_ ?_ ?_
  · exact (List.perm_insertionSort _ _).trans (suffix_array_perm S)
  · exact List.sorted_insertionSort _ _
  · exact (List.pairwise_lt_range _).imp (fun h => Nat.le_of_lt h)

/-- Witness for C6 at the worked example. -/
theorem claimC6_testemunha :
    "TAGACAGAGA$".data.count '$' = 1 ∧
    procuraPadraoBWT
      ⟨"TAGACAGAGA$".data, [], some (suffix_array "TAGACAGAGA$".data)⟩ [] =
      some (List.range "TAGACAGAGA$".data.length) :=
  ⟨by decide, claimC6_padrao_vazio "TAGACAGAGA$".data '$' (by decide)⟩

/-! ### Dictionaries built by `criarDicionarioOcorrencias` -/

theorem eraseDups_loop_mem (x : Char) :
    ∀ (as acc : List Char), x ∈ List.eraseDups.loop as acc ↔ x ∈ acc ∨ x ∈ as := by
  intro as
  induction as with
  | nil =>
    intro acc
    show x ∈ acc.reverse ↔ _
    simp
  | cons a as ih =>
    intro acc
    show x ∈ (match List.elem a acc with
      | true => List.eraseDups.loop as acc
      | false => List.eraseDups.loop as (a :: acc)) ↔ x ∈ acc ∨ x ∈ a :: as
    cases h : List.elem a acc with
    | true =>
      show x ∈ List.eraseDups.loop as acc ↔ _
      rw [ih]
      have ha : a ∈ acc := by
        rwa [List.elem_iff] at h
      constructor
      · rintro (hx | hx)
        · exact Or.inl hx
        · exact Or.inr (List.mem_cons_of_mem _ hx)
      · rintro (hx | hx)
        · exact Or.inl hx
        · rcases List.mem_cons.mp hx with rfl | hx
          · exact Or.inl ha
          · exact Or.inr hx
    | false =>
      show x ∈ List.eraseDups.loop as (a :: acc) ↔ _
      rw [ih]
      simp
      tauto

theorem eraseDups_loop_nodup :
    ∀ (as acc : List Char), acc.Nodup → (List.eraseDups.loop as acc).Nodup := by
  intro as
  induction as with
  | nil =>
    intro acc h
    show acc.reverse.Nodup
    simpa using h
  | cons a as ih =>
    intro acc h
    show (match List.elem a acc with
      | true => List.eraseDups.loop as acc
      | false => List.eraseDups.loop as (a :: acc)).Nodup
    cases hm : List.elem a acc with
    | true =>
      show (List.eraseDups.loop as acc).Nodup
      exact ih acc h
    | false =>
      show (List.eraseDups.loop as (a :: acc)).Nodup
      refine ih (a :: acc) (List.nodup_cons.mpr ⟨?_, h⟩)
      intro hmem
      rw [List.elem_iff.mpr hmem] at hm
      cases hm

theorem mem_eraseDups {l : List Char} {x : Char} : x ∈ l.eraseDups ↔ x ∈ l := by
  unfold List.eraseDups
  rw [eraseDups_loop_mem]
  simp

theorem nodup_eraseDups (l : List Char) : l.eraseDups.Nodup :=
  eraseDups_loop_nodup l [] List.nodup_nil

/-! ### Rows and columns of the sorted matrix -/

theorem getD_eq_get {α : Type _} {l : List α} {i : Nat} (d : α) (h : i < l.length) :
    l.getD i d = l.get ⟨i, h⟩ := by
  have h2 := get?_getD d h
  rw [List.get?_eq_get h] at h2
  exact (Option.some.inj h2).symm

theorem map_getD {f : Nat → Char} {l : List Nat} {i : Nat} (h : i < l.length) :
    (l.map f).getD i ' ' = f (l.getD i 0) := by
  have h2 : (l.map f).get? i = some (f (l.getD i 0)) := by
    rw [List.get?_map, get?_getD 0 h]
    rfl
  have h3 := get?_getD ' ' (show i < (l.map f).length by simpa using h)
  rw [h2] at h3
  exact (Option.some.inj h3).symm

theorem colunaF_length (s : List Char) : (colunaF s).length = s.length := by
  unfold colunaF
  rw [List.length_map, suffix_array_length]

theorem colunaL_length (s : List Char) : (colunaL s).length = s.length := by
  unfold colunaL
  rw [List.length_map, suffix_array_length]

theorem colunaF_getD {s : List Char} {i : Nat} (h : i < (suffix_array s).length) :
    (colunaF s).getD i ' ' = s.getD ((suffix_array s).getD i 0) ' ' :=
  map_getD h

theorem colunaL_getD {s : List Char} {i : Nat} (h : i < (suffix_array s).length) :
    (colunaL s).getD i ' ' =
      s.getD (((suffix_array s).getD i 0 + s.length - 1) % s.length) ' ' :=
  map_getD h

theorem sa_getD_lt {s : List Char} {i : Nat} (hi : i < (suffix_array s).length) :
    (suffix_array s).getD i 0 < s.length := by
  apply suffix_array_mem.mp
  rw [getD_eq_get 0 hi]
  exact List.get_mem _ _ _

theorem sa_getD_inj {s : List Char} {i j : Nat} (hi : i < (suffix_array s).length)
    (hj : j < (suffix_array s).length)
    (h : (suffix_array s).getD i 0 = (suffix_array s).getD j 0) : i = j := by
  apply List.get?_inj hi (suffix_array_nodup s)
  rw [get?_getD 0 hi, get?_getD 0 hj, h]

theorem linha_lt {s : List Char} {p : Nat} (hp : p < s.length) :
    linha s p < (suffix_array s).length :=
  List.indexOf_lt_length.mpr (suffix_array_mem.mpr hp)

theorem sa_linha {s : List Char} {p : Nat} (hp : p < s.length) :
    (suffix_array s).getD (linha s p) 0 = p := by
  rw [getD_eq_get 0 (linha_lt hp)]
  exact List.getElem_indexOf _

theorem linha_sa {s : List Char} {i : Nat} (hi : i < (suffix_array s).length) :
    linha s ((suffix_array s).getD i 0) = i := by
  have hp : (suffix_array s).getD i 0 < s.length := sa_getD_lt hi
  exact sa_getD_inj (linha_lt hp) hi (sa_linha hp)

theorem rotacao_cons {s : List Char} {k : Nat} (hk : k < s.length) :
    rotacao s k = s.getD k ' ' :: (s.drop (k + 1) ++ s.take k) := by
  unfold rotacao
  rw [List.drop_eq_get_cons hk, getD_eq_get ' ' hk]
  rfl

theorem rot_succ {s : List Char} {k : Nat} (hk : k < s.length) :
    rotacao s ((k + 1) % s.length) =
      (s.drop (k + 1) ++ s.take k) ++ [s.getD k ' '] := by
  have htk : s.take k ++ [s.getD k ' '] = s.take (k + 1) := by
    rw [List.take_succ, ← List.get?_eq_getElem?, get?_getD ' ' hk]
    rfl
  by_cases h : k + 1 < s.length
  · rw [Nat.mod_eq_of_lt h]
    unfold rotacao
    rw [← htk, ← List.append_assoc]
  · have hk1 : k + 1 = s.length := by omega
    have hm : (k + 1) % s.length = 0 := by
      rw [hk1, Nat.mod_self]
    rw [hm, rotacao_zero, hk1, List.drop_length, List.nil_append, htk, hk1,
      List.take_length]

theorem rotacao_inj {s : List Char} {c0 : Char}
    (hlast : s.getLast? = some c0) (hcount : s.count c0 = 1) :
    ∀ {i j : Nat}, i < s.length → j < s.length → rotacao s i = rotacao s j → i = j := by
  suffices haux : ∀ i j, i < s.length → j < s.length → j ≤ i → i ≠ j →
      rotacao s i = rotacao s j → False by
    intro i j hi hj h
    by_contra hne
    rcases le_total j i with hle | hle
    · exact haux i j hi hj hle hne h
    · exact haux j i hj hi hle (Ne.symm hne) h.symm
  intro i j hi hj hle hne h
  apply nao_prefixo hlast hcount hne hi hj
  have h1 := congrArg (List.take (s.length - i)) h
  show (s.drop j).take (s.drop i).length = s.drop i
  unfold rotacao at h1
  rw [List.take_append_of_le_length (by rw [List.length_drop]),
    List.take_append_of_le_length (by rw [List.length_drop]; omega)] at h1
  have h2 : (s.drop i).take (s.length - i) = s.drop i := by
    rw [← List.length_drop]
    exact List.take_length _
  rw [h2] at h1
  rw [List.length_drop]
  exact h1.symm

/-- Row order in the sorted matrix is exactly strict lexicographic order
of the rotations. -/
theorem ordem_linhas {s : List Char} {c0 : Char}
    (hlast : s.getLast? = some c0) (hcount : s.count c0 = 1)
    {a b : Nat} (ha : a < (suffix_array s).length) (hb : b < (suffix_array s).length) :
    a < b ↔
      (lexLe (rotacao s ((suffix_array s).getD a 0))
          (rotacao s ((suffix_array s).getD b 0)) = true ∧ a ≠ b) := by
  constructor
  · intro hab
    refine ⟨?_, Nat.ne_of_lt hab⟩
    have hane : (suffix_array s).getD a 0 ≠ (suffix_array s).getD b 0 := by
      intro he
      exact Nat.ne_of_lt hab (sa_getD_inj ha hb he)
    rw [lexLe_rotacao hlast hcount hane (sa_getD_lt ha) (sa_getD_lt hb)]
    have hp := List.pairwise_iff_get.mp (suffix_array_sorted s) ⟨a, ha⟩ ⟨b, hb⟩ hab
    rw [getD_eq_get 0 ha, getD_eq_get 0 hb]
    exact hp
  · rintro ⟨hle, hne⟩
    by_contra hnot
    have hba : b < a := by
      rcases Nat.lt_or_ge b a with h | h
      · exact h
      · exact absurd (by omega : a = b) hne
    have hane : (suffix_array s).getD b 0 ≠ (suffix_array s).getD a 0 := by
      intro he
      exact (Ne.symm hne) (sa_getD_inj hb ha he)
    have hle2 : lexLe (rotacao s ((suffix_array s).getD b 0))
        (rotacao s ((suffix_array s).getD a 0)) = true := by
      rw [lexLe_rotacao hlast hcount hane (sa_getD_lt hb) (sa_getD_lt ha)]
      have hp := List.pairwise_iff_get.mp (suffix_array_sorted s) ⟨b, hb⟩ ⟨a, ha⟩ hba
      rw [getD_eq_get 0 hb, getD_eq_get 0 ha]
      exact hp
    have heq := lexLe_antisymm hle hle2
    have := rotacao_inj hlast hcount (sa_getD_lt ha) (sa_getD_lt hb) heq
    exact hne (sa_getD_inj ha hb this)

/-! ### The last-first correspondence -/

theorem lexLe_cons_same {c : Char} {x y : List Char} :
    lexLe (c :: x) (c :: y) = lexLe x y := by
  simp [lexLe]

/-- Appending the same final character to two distinct equal-length lists
does not change their comparison. -/
theorem lexLe_append_same {c : Char} {x y : List Char}
    (hlen : x.length = y.length) (hne : x ≠ y) :
    lexLe (x ++ [c]) (y ++ [c]) = lexLe x y := by
  apply lexLe_append_congr
  · rw [hlen, List.take_length]
    exact Ne.symm hne
  · rw [← hlen, List.take_length]
    exact hne

theorem mod_ciclo {n κ : Nat} (hκ : κ < n) : ((κ + 1) % n + n - 1) % n = κ := by
  have hn : 0 < n := by omega
  have h1 : (κ + 1) % n + n - 1 = (κ + 1) % n + (n - 1) := by omega
  rw [h1, Nat.mod_add_mod]
  have h2 : κ + 1 + (n - 1) = κ + n := by omega
  rw [h2, Nat.add_mod_right]
  exact Nat.mod_eq_of_lt hκ

theorem mod_ciclo' {n p : Nat} (hp : p < n) : ((p + n - 1) % n + 1) % n = p := by
  have hn : 0 < n := by omega
  rw [Nat.mod_add_mod]
  have h2 : p + n - 1 + 1 = p + n := by omega
  rw [h2, Nat.add_mod_right]
  exact Nat.mod_eq_of_lt hp

theorem colunaL_linha_succ {s : List Char} {κ : Nat} (hκ : κ < s.length) :
    (colunaL s).getD (linha s ((κ + 1) % s.length)) ' ' = s.getD κ ' ' := by
  have hn : 0 < s.length := by omega
  have hlt : (κ + 1) % s.length < s.length := Nat.mod_lt _ hn
  rw [colunaL_getD (linha_lt hlt), sa_linha hlt, mod_ciclo hκ]

/-- Order preservation of the last-first map: among rows whose first
column holds the same character, row order agrees with the order of the
rows holding their left-rotations. -/
theorem lf_ordem {s : List Char} {c0 : Char}
    (hlast : s.getLast? = some c0) (hcount : s.count c0 = 1)
    {x y : Nat} (hx : x < (suffix_array s).length) (hy : y < (suffix_array s).length)
    (hcx : (colunaF s).getD x ' ' = (colunaF s).getD y ' ') :
    (x < y ↔ linha s (((suffix_array s).getD x 0 + 1) % s.length) <
      linha s (((suffix_array s).getD y 0 + 1) % s.length)) := by
  have hs : s ≠ [] := by
    intro h
    rw [h] at hlast
    cases hlast
  have hn : 0 < s.length := List.length_pos.mpr hs
  by_cases hxy : x = y
  · subst hxy
    simp
  · have hκ : (suffix_array s).getD x 0 < s.length := sa_getD_lt hx
    have hel : (suffix_array s).getD y 0 < s.length := sa_getD_lt hy
    have hkl : (suffix_array s).getD x 0 ≠ (suffix_array s).getD y 0 :=
      fun h => hxy (sa_getD_inj hx hy h)
    have hc : s.getD ((suffix_array s).getD x 0) ' '
        = s.getD ((suffix_array s).getD y 0) ' ' := by
      rw [← colunaF_getD hx, ← colunaF_getD hy]
      exact hcx
    have hx1 : ((suffix_array s).getD x 0 + 1) % s.length < s.length := Nat.mod_lt _ hn
    have hy1 : ((suffix_array s).getD y 0 + 1) % s.length < s.length := Nat.mod_lt _ hn
    have hx' : x < y ↔ (lexLe (rotacao s ((suffix_array s).getD x 0))
        (rotacao s ((suffix_array s).getD y 0)) = true ∧ x ≠ y) :=
      ordem_linhas hlast hcount hx hy
    have hy' := ordem_linhas hlast hcount (linha_lt hx1) (linha_lt hy1)
    rw [sa_linha hx1, sa_linha hy1] at hy'
    rw [hx', hy']
    rw [rot_succ hκ, rot_succ hel]
    rw [rotacao_cons hκ, rotacao_cons hel, hc, lexLe_cons_same]
    have htne : s.drop ((suffix_array s).getD x 0 + 1) ++ s.take ((suffix_array s).getD x 0)
        ≠ s.drop ((suffix_array s).getD y 0 + 1) ++ s.take ((suffix_array s).getD y 0) := by
      intro h
      apply hkl
      apply rotacao_inj hlast hcount hκ hel
      rw [rotacao_cons hκ, rotacao_cons hel, hc, h]
    have hlens : (s.drop ((suffix_array s).getD x 0 + 1)
          ++ s.take ((suffix_array s).getD x 0)).length
        = (s.drop ((suffix_array s).getD y 0 + 1)
          ++ s.take ((suffix_array s).getD y 0)).length := by
      rw [List.length_append, List.length_append, List.length_drop, List.length_drop,
        List.length_take, List.length_take]
      omega
    rw [lexLe_append_same hlens htne]
    constructor
    · rintro ⟨h1, -⟩
      refine ⟨h1, ?_⟩
      intro he
      apply hkl
      have h3 : ((suffix_array s).getD x 0 + 1) % s.length =
          ((suffix_array s).getD y 0 + 1) % s.length := by
        have h4 := congrArg (fun t => (suffix_array s).getD t 0) he
        simp only at h4
        rwa [sa_linha hx1, sa_linha hy1] at h4
      have h5 := congrArg (fun t => (t + s.length - 1) % s.length) h3
      simp only at h5
      rwa [mod_ciclo hκ, mod_ciclo hel] at h5
    · rintro ⟨h1, -⟩
      exact ⟨h1, hxy⟩

/-- Occurrence counting as a `Finset` cardinality. -/
theorem count_take_card (col : List Char) (c : Char) :
    ∀ a, a ≤ col.length →
      (col.take a).count c =
        ((Finset.range a).filter (fun i => col.getD i ' ' = c)).card := by
  intro a
  induction a with
  | zero => intro _; simp
  | succ a ih =>
    intro ha
    rw [List.take_succ, ← List.get?_eq_getElem?, get?_getD ' ' (by omega)]
    show (col.take a ++ [col.getD a ' ']).count c = _
    rw [List.count_append, ih (by omega), Finset.range_succ, Finset.filter_insert]
    by_cases hc : col.getD a ' ' = c
    · rw [if_pos hc, Finset.card_insert_of_not_mem (by simp)]
      rw [hc]
      simp
    · rw [if_neg hc]
      have h0 : List.count c [col.getD a ' '] = 0 := by
        rw [List.count_eq_zero]
        intro hmem
        rw [List.mem_singleton] at hmem
        exact hc hmem.symm
      rw [h0]
      rfl

/-- The last-first correspondence: when row `b` holds the left-rotation of
row `a`, the rank of row `a`'s first-column character among the first
column up to `a` equals its rank among the last column up to `b`. -/
theorem lf_rank {s : List Char} {c0 : Char}
    (hlast : s.getLast? = some c0) (hcount : s.count c0 = 1)
    {a b : Nat} (ha : a < (suffix_array s).length) (hb : b < (suffix_array s).length)
    (hab : (suffix_array s).getD b 0 = ((suffix_array s).getD a 0 + 1) % s.length) :
    ((colunaL s).take b).count ((colunaF s).getD a ' ') =
      ((colunaF s).take a).count ((colunaF s).getD a ' ') := by
  have hs : s ≠ [] := by
    intro h
    rw [h] at hlast
    cases hlast
  have hn : 0 < s.length := List.length_pos.mpr hs
  have hsal : (suffix_array s).length = s.length := suffix_array_length s
  have hba : b = linha s (((suffix_array s).getD a 0 + 1) % s.length) := by
    have h2 := linha_sa hb
    rw [hab] at h2
    exact h2.symm
  rw [count_take_card _ _ b (by rw [colunaL_length]; omega),
    count_take_card _ _ a (by rw [colunaF_length]; omega)]
  symm
  apply Finset.card_bij
    (fun x _ => linha s (((suffix_array s).getD x 0 + 1) % s.length))
  · intro x hxmem
    rw [Finset.mem_filter, Finset.mem_range] at hxmem
    rw [Finset.mem_filter, Finset.mem_range]
    obtain ⟨hxa, hxc⟩ := hxmem
    have hx : x < (suffix_array s).length := by omega
    constructor
    · rw [hba]
      exact (lf_ordem hlast hcount hx ha hxc).mp hxa
    · have hκ : (suffix_array s).getD x 0 < s.length := sa_getD_lt hx
      rw [colunaL_linha_succ hκ, ← colunaF_getD hx, hxc]
  · intro x1 h1 x2 h2 heq
    rw [Finset.mem_filter, Finset.mem_range] at h1 h2
    have hx1 : x1 < (suffix_array s).length := by omega
    have hx2 : x2 < (suffix_array s).length := by omega
    have hs1 := congrArg (fun t => (suffix_array s).getD t 0) heq
    simp only at hs1
    rw [sa_linha (Nat.mod_lt _ hn), sa_linha (Nat.mod_lt _ hn)] at hs1
    have hs2 := congrArg (fun t => (t + s.length - 1) % s.length) hs1
    simp only at hs2
    rw [mod_ciclo (sa_getD_lt hx1), mod_ciclo (sa_getD_lt hx2)] at hs2
    exact sa_getD_inj hx1 hx2 hs2
  · intro y hymem
    rw [Finset.mem_filter, Finset.mem_range] at hymem
    obtain ⟨hyb, hyc⟩ := hymem
    have hy : y < (suffix_array s).length := by omega
    have hp : (suffix_array s).getD y 0 < s.length := sa_getD_lt hy
    have hq : ((suffix_array s).getD y 0 + s.length - 1) % s.length < s.length :=
      Nat.mod_lt _ hn
    have hcolF : (colunaF s).getD
        (linha s (((suffix_array s).getD y 0 + s.length - 1) % s.length)) ' '
        = (colunaF s).getD a ' ' := by
      rw [colunaF_getD (linha_lt hq), sa_linha hq, ← colunaL_getD hy]
      exact hyc
    refine ⟨linha s (((suffix_array s).getD y 0 + s.length - 1) % s.length), ?_, ?_⟩
    · rw [Finset.mem_filter, Finset.mem_range]
      refine ⟨?_, hcolF⟩
      have hxlt : linha s (((suffix_array s).getD y 0 + s.length - 1) % s.length)
          < (suffix_array s).length := linha_lt hq
      apply (lf_ordem hlast hcount hxlt ha hcolF).mpr
      have hphix : linha s (((suffix_array s).getD
          (linha s (((suffix_array s).getD y 0 + s.length - 1) % s.length)) 0 + 1)
            % s.length) = y := by
        rw [sa_linha hq, mod_ciclo' hp, linha_sa hy]
      rw [hphix, ← hba]
      exact hyb
    · rw [sa_linha hq, mod_ciclo' hp, linha_sa hy]

/-! ### The reconstruction walk -/

theorem etiquetarColuna_length (col : List Char) :
    (etiquetarColuna col).length = col.length :=
  etiquetarColunaAux_length col []

theorem etiquetarColuna_get? {col : List Char} {i : Nat} (hi : i < col.length) :
    (etiquetarColuna col).get? i = some (etiquetaDe col i) := by
  unfold etiquetarColuna etiquetaDe
  rw [etiquetarColunaAux_get? col [] i hi, List.nil_append]

theorem etiquetaDe_inj {col : List Char} {i j : Nat} (hi : i < col.length)
    (hj : j < col.length) (h : etiquetaDe col i = etiquetaDe col j) : i = j := by
  have h0 : i < (etiquetarColuna col).length := by
    rw [etiquetarColuna_length]
    exact hi
  apply List.get?_inj h0 (etiquetarColunaAux_nodup col [])
  rw [etiquetarColuna_get? hi, etiquetarColuna_get? hj, h]

/-- Unfolding equation of one scan step. -/
theorem obterPassagem_cons (prim : List Etiqueta) (comp : Nat) (letra : Etiqueta)
    (acc : List Char) (indice : Nat) (item : Etiqueta) (resto : List Etiqueta) :
    obterPassagem prim comp letra acc indice (item :: resto) =
      if item = letra then
        (match prim.get? indice with
        | none => none
        | some nova =>
          if (acc ++ [letra.1]).length = comp then some (Sum.inl (acc ++ [letra.1]))
          else obterPassagem prim comp nova (acc ++ [letra.1]) (indice + 1) resto)
      else
        (if acc.length = comp then some (Sum.inl acc)
        else obterPassagem prim comp letra acc (indice + 1) resto) := rfl

/-- One scan step at a matching position with a valid first-column
index. -/
theorem obterPassagem_match (prim : List Etiqueta) (comp : Nat) (letra : Etiqueta)
    (acc : List Char) (indice : Nat) (item : Etiqueta) (resto : List Etiqueta)
    (h : item = letra) {nova : Etiqueta} (hn : prim.get? indice = some nova) :
    obterPassagem prim comp letra acc indice (item :: resto) =
      if (acc ++ [letra.1]).length = comp then some (Sum.inl (acc ++ [letra.1]))
      else obterPassagem prim comp nova (acc ++ [letra.1]) (indice + 1) resto := by
  rw [obterPassagem_cons, if_pos h, hn]

/-- A scan over a stretch of the column holding no occurrence of the
sought tag changes nothing and ends the pass. -/
theorem passagem_sem_match (prim : List Etiqueta) (comp : Nat) (t : Etiqueta)
    (acc : List Char) :
    ∀ (rest : List Etiqueta) (i : Nat), (∀ e ∈ rest, e ≠ t) → acc.length ≠ comp →
      obterPassagem prim comp t acc i rest = some (Sum.inr (t, acc)) := by
  intro rest
  induction rest with
  | nil => intro i _ _; rfl
  | cons e rest ih =>
    intro i hne hlen
    rw [obterPassagem_cons, if_neg (hne e (List.mem_cons_self _ _)), if_neg hlen]
    exact ih (i + 1) (fun x hx => hne x (List.mem_cons_of_mem _ hx)) hlen

/-- Scanning past positions that do not hold the sought tag. -/
theorem passagem_salta (ult prim : List Etiqueta) (comp : Nat) (t : Etiqueta)
    (acc : List Char) :
    ∀ (d i r : Nat), i + d = r → r ≤ ult.length →
      (∀ j, i ≤ j → j < r → ∀ e, ult.get? j = some e → e ≠ t) →
      acc.length ≠ comp →
      obterPassagem prim comp t acc i (ult.drop i) =
        obterPassagem prim comp t acc r (ult.drop r) := by
  intro d
  induction d with
  | zero =>
    intro i r hir _ _ _
    rw [show i = r by omega]
  | succ d ih =>
    intro i r hir hr hnm hlen
    have hi : i < ult.length := by omega
    rw [List.drop_eq_get_cons hi, obterPassagem_cons]
    have hne : ult.get ⟨i, hi⟩ ≠ t :=
      hnm i (le_refl i) (by omega) _ (List.get?_eq_get hi)
    rw [if_neg hne, if_neg hlen]
    exact ih (i + 1) r (by omega) hr
      (fun j hj1 hj2 e he => hnm j (by omega) hj2 e he) hlen

theorem acumulado_length {s : List Char} {c0 : Char} :
    ∀ m, m ≤ s.length → (acumulado s c0 m).length = m := by
  intro m hm
  cases m with
  | zero => rfl
  | succ m =>
    show (c0 :: s.take m).length = m + 1
    rw [List.length_cons, List.length_take]
    omega

theorem acumulado_append {s : List Char} {c0 : Char}
    (hlast : s.getLast? = some c0) :
    ∀ m, m < s.length →
      acumulado s c0 m ++ [s.getD ((m + s.length - 1) % s.length) ' ']
        = acumulado s c0 (m + 1) := by
  intro m hm
  have hn : 0 < s.length := by omega
  cases m with
  | zero =>
    have h1 : (0 + s.length - 1) % s.length = s.length - 1 := by
      rw [Nat.zero_add]
      exact Nat.mod_eq_of_lt (by omega)
    have h2 : s.getD (s.length - 1) ' ' = c0 := by
      have h3 := get?_getD ' ' (show s.length - 1 < s.length by omega)
      rw [← List.getLast?_eq_get?, hlast] at h3
      exact (Option.some.inj h3).symm
    show [] ++ [s.getD ((0 + s.length - 1) % s.length) ' '] = c0 :: s.take 0
    rw [h1, h2]
    rfl
  | succ m =>
    have h1 : (m + 1 + s.length - 1) % s.length = m := by
      have h2 : m + 1 + s.length - 1 = m + s.length := by omega
      rw [h2, Nat.add_mod_right]
      exact Nat.mod_eq_of_lt (by omega)
    show (c0 :: s.take m) ++ [s.getD ((m + 1 + s.length - 1) % s.length) ' ']
      = c0 :: s.take (m + 1)
    rw [h1, List.cons_append]
    congr 1
    rw [List.take_succ, ← List.get?_eq_getElem?, get?_getD ' ' (by omega)]
    rfl

/-- The driver's start tag `($, 0)` is the tag standing at the row of
rotation 0 in the tagged last column. -/
theorem etiqueta_inicial {s : List Char} {c0 : Char}
    (hlast : s.getLast? = some c0) (hcount : s.count c0 = 1) (hn : 0 < s.length) :
    etiquetaDe (colunaL s) (linha s 0) = (c0, 0) := by
  have h0 : (0 : Nat) < s.length := hn
  have hchar : (colunaL s).getD (linha s 0) ' ' = c0 := by
    rw [colunaL_getD (linha_lt h0), sa_linha h0]
    have h1 : (0 + s.length - 1) % s.length = s.length - 1 := by
      rw [Nat.zero_add]
      exact Nat.mod_eq_of_lt (by omega)
    rw [h1]
    have h3 := get?_getD ' ' (show s.length - 1 < s.length by omega)
    rw [← List.getLast?_eq_get?, hlast] at h3
    exact (Option.some.inj h3).symm
  have hcnt : ((colunaL s).take (linha s 0)).count c0 = 0 := by
    rw [List.count_eq_zero]
    intro hmem
    rcases List.mem_take_iff_getElem.mp hmem with ⟨i, hi, hgi⟩
    have hi2 : i < (suffix_array s).length := by
      have := colunaL_length s
      rw [suffix_array_length]
      omega
    have hgD : (colunaL s).getD i ' ' = c0 := by
      rw [getD_eq_get ' ' (by omega : i < (colunaL s).length)]
      exact hgi
    rw [colunaL_getD hi2] at hgD
    have hq : ((suffix_array s).getD i 0 + s.length - 1) % s.length < s.length :=
      Nat.mod_lt _ hn
    have hpos : ((suffix_array s).getD i 0 + s.length - 1) % s.length = s.length - 1 := by
      apply sentinela_pos hlast hcount
      rw [get?_getD ' ' hq, hgD]
    have hzero : (suffix_array s).getD i 0 = 0 := by
      have h5 := congrArg (fun t => (t + 1) % s.length) hpos
      simp only at h5
      rw [mod_ciclo' (sa_getD_lt hi2)] at h5
      rw [h5]
      have h6 : s.length - 1 + 1 = s.length := by omega
      rw [h6, Nat.mod_self]
    have := linha_sa hi2
    rw [hzero] at this
    omega
  unfold etiquetaDe
  rw [hchar, hcnt]
  rfl

/-- The walk's step: the tag found in the tagged first column at the row
of rotation `m` is the tag of rotation `m + 1` in the tagged last
column. -/
theorem etiqueta_passo {s : List Char} {c0 : Char}
    (hlast : s.getLast? = some c0) (hcount : s.count c0 = 1)
    {m : Nat} (hm1 : m + 1 < s.length) :
    etiquetaDe (colunaF s) (linha s m) = etiquetaDe (colunaL s) (linha s (m + 1)) := by
  have hn : 0 < s.length := by omega
  have hm : m < s.length := by omega
  have hml : m + 1 < s.length := hm1
  have hchF : (colunaF s).getD (linha s m) ' ' = s.getD m ' ' := by
    rw [colunaF_getD (linha_lt hm), sa_linha hm]
  have hchL : (colunaL s).getD (linha s (m + 1)) ' ' = s.getD m ' ' := by
    rw [colunaL_getD (linha_lt hml), sa_linha hml]
    congr 1
    have h2 : m + 1 + s.length - 1 = m + s.length := by omega
    rw [h2, Nat.add_mod_right]
    exact Nat.mod_eq_of_lt hm
  have hrank := lf_rank hlast hcount (linha_lt hm) (linha_lt hml)
    (by
      rw [sa_linha hm, sa_linha hml]
      exact (Nat.mod_eq_of_lt hm1).symm)
  rw [hchF] at hrank
  unfold etiquetaDe
  rw [hchF, hchL, hrank]

/-- One full scan of the tagged last column: starting at or before the row
holding the sought tag, the pass appends at least one character and either
completes the reconstruction or hands the walk a later rotation's tag. -/
theorem passagem_cadeia {s : List Char} {c0 : Char}
    (hlast : s.getLast? = some c0) (hcount : s.count c0 = 1) :
    ∀ (d m i : Nat), m < s.length → i ≤ linha s m → s.length - m ≤ d →
      ∃ q, m < q ∧ q ≤ s.length ∧
        obterPassagem (etiquetarColuna (colunaF s)) s.length
            (etiquetaDe (colunaL s) (linha s m)) (acumulado s c0 m) i
            ((etiquetarColuna (colunaL s)).drop i) =
          (if q = s.length then some (Sum.inl (acumulado s c0 s.length))
          else some (Sum.inr (etiquetaDe (colunaL s) (linha s q), acumulado s c0 q))) := by
  intro d
  induction d with
  | zero =>
    intro m i hm _ hd
    omega
  | succ d ih =>
    intro m i hm hi hd
    have hn : 0 < s.length := by omega
    have hLlen : (etiquetarColuna (colunaL s)).length = s.length := by
      rw [etiquetarColuna_length, colunaL_length]
    have hFlen : (etiquetarColuna (colunaF s)).length = s.length := by
      rw [etiquetarColuna_length, colunaF_length]
    have hrm : linha s m < s.length := by
      have := linha_lt hm
      rwa [suffix_array_length] at this
    have hacc : (acumulado s c0 m).length = m := acumulado_length m (by omega)
    have hsalta := passagem_salta (etiquetarColuna (colunaL s))
      (etiquetarColuna (colunaF s)) s.length
      (etiquetaDe (colunaL s) (linha s m)) (acumulado s c0 m)
      (linha s m - i) i (linha s m) (by omega) (by omega)
      (fun j hj1 hj2 e he => by
        intro heq
        have hj3 : j < (colunaL s).length := by
          rw [colunaL_length]
          omega
        rw [etiquetarColuna_get? hj3] at he
        have he2 : etiquetaDe (colunaL s) j = etiquetaDe (colunaL s) (linha s m) :=
          (Option.some.inj he).trans heq
        have := etiquetaDe_inj hj3 (by rw [colunaL_length]; omega) he2
        omega)
      (by omega)
    rw [hsalta]
    rw [List.drop_eq_get_cons (show linha s m < (etiquetarColuna (colunaL s)).length by omega)]
    have hgetL : (etiquetarColuna (colunaL s)).get
        ⟨linha s m, by omega⟩ = etiquetaDe (colunaL s) (linha s m) := by
      have hlt9 : linha s m < (colunaL s).length := by
        rw [colunaL_length]
        omega
      have h9 := etiquetarColuna_get? hlt9
      rw [List.get?_eq_get (by omega : linha s m < (etiquetarColuna (colunaL s)).length)] at h9
      exact Option.some.inj h9
    have hltF : linha s m < (colunaF s).length := by
      rw [colunaF_length]
      omega
    rw [obterPassagem_match _ _ _ _ _ _ _ hgetL (etiquetarColuna_get? hltF)]
    have hfst : (etiquetaDe (colunaL s) (linha s m)).1
        = s.getD ((m + s.length - 1) % s.length) ' ' := by
      show (colunaL s).getD (linha s m) ' ' = _
      rw [colunaL_getD (linha_lt hm), sa_linha hm]
    have happ : acumulado s c0 m ++ [(etiquetaDe (colunaL s) (linha s m)).1]
        = acumulado s c0 (m + 1) := by
      rw [hfst]
      exact acumulado_append hlast m hm
    rw [happ]
    rw [acumulado_length (m + 1) (by omega)]
    by_cases hfim : m + 1 = s.length
    · rw [if_pos hfim]
      refine ⟨s.length, by omega, le_refl _, ?_⟩
      rw [if_pos rfl, hfim]
    · rw [if_neg hfim]
      have hm1 : m + 1 < s.length := by omega
      rw [etiqueta_passo hlast hcount hm1]
      have hrm1 : linha s (m + 1) < s.length := by
        have := linha_lt hm1
        rwa [suffix_array_length] at this
      by_cases hord : linha s m + 1 ≤ linha s (m + 1)
      · obtain ⟨q, hq1, hq2, hq3⟩ := ih (m + 1) (linha s m + 1) hm1 hord (by omega)
        exact ⟨q, by omega, hq2, hq3⟩
      · refine ⟨m + 1, by omega, by omega, ?_⟩
        rw [if_neg hfim]
        apply passagem_sem_match
        · intro e he
          intro heq
          rcases List.mem_iff_get.mp he with ⟨⟨j, hj⟩, hje⟩
          have hj2 : linha s m + 1 + j < (colunaL s).length := by
            rw [List.length_drop] at hj
            rw [colunaL_length]
            omega
          have hge : (etiquetarColuna (colunaL s)).get? (linha s m + 1 + j) = some e := by
            rw [← hje, ← List.get?_eq_get hj, List.get?_drop]
          rw [etiquetarColuna_get? hj2] at hge
          have he2 : etiquetaDe (colunaL s) (linha s m + 1 + j)
              = etiquetaDe (colunaL s) (linha s (m + 1)) :=
            (Option.some.inj hge).trans heq
          have := etiquetaDe_inj hj2 (by rw [colunaL_length]; omega) he2
          omega
        · rw [acumulado_length (m + 1) (by omega)]
          omega

/-- The full reconstruction walk: from the tag of rotation `m` with the
first `m` characters already collected, enough scans collect all `n`
characters. -/
theorem caminhada {s : List Char} {c0 : Char}
    (hlast : s.getLast? = some c0) (hcount : s.count c0 = 1) :
    ∀ (fuel m : Nat), m < s.length → s.length - m ≤ fuel →
      obterSequenciaOriginal fuel (etiquetaDe (colunaL s) (linha s m)) s.length
        (etiquetarColuna (colunaF s)) (etiquetarColuna (colunaL s)) (acumulado s c0 m)
      = some (acumulado s c0 s.length) := by
  intro fuel
  induction fuel with
  | zero =>
    intro m hm hf
    omega
  | succ f ih =>
    intro m hm hf
    obtain ⟨q, hq1, hq2, hq3⟩ := passagem_cadeia hlast hcount (s.length - m) m 0 hm
      (Nat.zero_le _) (le_refl _)
    rw [List.drop_zero] at hq3
    show (match obterPassagem (etiquetarColuna (colunaF s)) s.length
        (etiquetaDe (colunaL s) (linha s m)) (acumulado s c0 m) 0
        (etiquetarColuna (colunaL s)) with
      | none => none
      | some (Sum.inl feito) => some feito
      | some (Sum.inr (letra2, acc2)) =>
        obterSequenciaOriginal f letra2 s.length (etiquetarColuna (colunaF s))
          (etiquetarColuna (colunaL s)) acc2) = some (acumulado s c0 s.length)
    rw [hq3]
    by_cases hq : q = s.length
    · rw [if_pos hq]
    · rw [if_neg hq]
      exact ih q (by omega) (by omega)

/-- Sorting the BWT string gives exactly the first column of the sorted
matrix. -/
theorem primeira_coluna_eq {s : List Char} {c0 : Char}
    (hlast : s.getLast? = some c0) (hcount : s.count c0 = 1) :
    criarPrimeiraColuna (colunaL s) = colunaF s := by
  have hs : s ≠ [] := by
    intro h
    rw [h] at hlast
    cases hlast
  have hn : 0 < s.length := List.length_pos.mpr hs
  unfold criarPrimeiraColuna
  refine @List.eq_of_perm_of_sorted _ ((· ≤ ·) : Char → Char → Prop) _ _ _ ?_ ?_ ?_
  · apply (List.perm_insertionSort _ _).trans
    unfold colunaL colunaF
    have h1 : ((suffix_array s).map
        (fun k => s.getD ((k + s.length - 1) % s.length) ' ')).Perm s := by
      apply ((suffix_array_perm s).map _).trans
      exact ultimos_rotacoes_perm hs
    have h2 : ((suffix_array s).map (fun k => s.getD k ' ')).Perm s := by
      apply ((suffix_array_perm s).map _).trans
      rw [map_getD_range]
    exact h1.trans h2.symm
  · exact List.sorted_insertionSort _ _
  · show ((suffix_array s).map (fun k => s.getD k ' ')).Pairwise _
    rw [List.pairwise_map]
    have hp := (suffix_array_sorted s).and (suffix_array_nodup s)
    refine hp.imp_of_mem ?_
    intro a b ha hb hab
    have hal : a < s.length := suffix_array_mem.mp ha
    have hbl : b < s.length := suffix_array_mem.mp hb
    have h3 := hab.1
    rw [List.drop_eq_get_cons hal, List.drop_eq_get_cons hbl] at h3
    have h4 := lexLe_head_le h3
    rw [getD_eq_get ' ' hal, getD_eq_get ' ' hbl]
    exact h4

/-- The final rotate-left-by-one correction turns the collected walk
output into the original sequence. -/
theorem correcao_final {s : List Char} {c0 : Char}
    (hlast : s.getLast? = some c0) :
    SequenciaOriginalEmString (acumulado s c0 s.length) = s := by
  have hs : s ≠ [] := by
    intro h
    rw [h] at hlast
    cases hlast
  obtain ⟨m, hm⟩ : ∃ m, s.length = m + 1 :=
    ⟨s.length - 1, by have := List.length_pos.mpr hs; omega⟩
  rw [hm]
  show (c0 :: s.take m).drop 1 ++ (c0 :: s.take m).take 1 = s
  show s.take m ++ [c0] = s
  have hd : s.take m = s.dropLast := by
    rw [List.dropLast_eq_take, hm]
    norm_num
  have hgl : s.getLast hs = c0 := by
    rw [List.getLast?_eq_getLast s hs] at hlast
    exact Option.some.inj hlast
  rw [hd, ← hgl]
  exact List.dropLast_append_getLast hs

/-- **C1 (amended).** Round trip: for every sequence containing exactly
one sentinel symbol (lexicographically smallest) *at its final position*,
building the BWT and reconstructing via the rank-tagged first/last-column
walk started at the sentinel's 0th occurrence, followed by the final
rotate-left-by-one correction, yields the sequence itself. -/
theorem claimC1_ida_e_volta {s : List Char} {c0 : Char}
    (hlast : s.getLast? = some c0) (hcount : s.count c0 = 1)
    (hmin : ∀ c ∈ s, c0 ≤ c) :
    ∃ bwt, construirBWT (ordenarMatriz (criarMatriz s)) = some bwt ∧
      inverter s.length c0 bwt = some s := by
  have hs : s ≠ [] := by
    intro h
    rw [h] at hlast
    cases hlast
  have hn : 0 < s.length := List.length_pos.mpr hs
  rw [matriz_ordenada_eq hlast hcount,
    construirBWT_rotacoes hs (fun k hk => suffix_array_mem.mp hk)]
  refine ⟨colunaL s, rfl, ?_⟩
  show (obterSequenciaOriginal s.length (c0, 0)
      (preencherLista
        (preencherLista (criarDicionarioOcorrencias (colunaL s))
          (criarPrimeiraColuna (colunaL s)) []).1
        (criarUltimaColuna (colunaL s)) []).2.length
      (preencherLista (criarDicionarioOcorrencias (colunaL s))
        (criarPrimeiraColuna (colunaL s)) []).2
      (preencherLista
        (preencherLista (criarDicionarioOcorrencias (colunaL s))
          (criarPrimeiraColuna (colunaL s)) []).1
        (criarUltimaColuna (colunaL s)) []).2
      []).map SequenciaOriginalEmString = some s
  rw [show criarUltimaColuna (colunaL s) = colunaL s from rfl]
  rw [primeira_coluna_eq hlast hcount]
  have hnd : (criarDicionarioOcorrencias (colunaL s)).keys.Nodup :=
    nodup_eraseDups _
  have hval : ∀ c ∈ (criarDicionarioOcorrencias (colunaL s)).keys,
      (criarDicionarioOcorrencias (colunaL s)).val c = -1 := fun _ _ => rfl
  have hpermF : ((suffix_array s).map (fun k => s.getD k ' ')).Perm s := by
    apply ((suffix_array_perm s).map _).trans
    rw [map_getD_range]
  have hpermL : ((suffix_array s).map
      (fun k => s.getD ((k + s.length - 1) % s.length) ' ')).Perm s := by
    apply ((suffix_array_perm s).map _).trans
    exact ultimos_rotacoes_perm hs
  have hsubF : ∀ c ∈ colunaF s, c ∈ (criarDicionarioOcorrencias (colunaL s)).keys := by
    intro c hc
    apply mem_eraseDups.mpr
    show c ∈ colunaL s
    exact hpermL.symm.subset (hpermF.subset hc)
  obtain ⟨hp1, hk1⟩ := preencherLista_etiquetas (criarDicionarioOcorrencias (colunaL s))
    (colunaF s) [] hnd hval hsubF
  have hsubL : ∀ c ∈ colunaL s,
      c ∈ (preencherLista (criarDicionarioOcorrencias (colunaL s)) (colunaF s) []).1.keys := by
    intro c hc
    rw [hk1]
    exact mem_eraseDups.mpr hc
  obtain ⟨hp2, hk2⟩ := preencherLista_etiquetas
    (preencherLista (criarDicionarioOcorrencias (colunaL s)) (colunaF s) []).1
    (colunaL s) [] (by rw [hk1]; exact hnd)
    (preencherLista_reset _ _ _) hsubL
  rw [hp1, hp2]
  simp only [List.nil_append]
  rw [show (etiquetarColuna (colunaL s)).length = s.length by
    rw [etiquetarColuna_length, colunaL_length]]
  rw [show ((c0, (0 : Int))) = etiquetaDe (colunaL s) (linha s 0) from
    (etiqueta_inicial hlast hcount hn).symm]
  rw [show ([] : List Char) = acumulado s c0 0 from rfl]
  rw [caminhada hlast hcount s.length 0 hn (by omega)]
  rw [Option.map_some']
  rw [correcao_final hlast]

/-- Witness for C1 at the worked example `"TAGACAGAGA$"`; in particular
inverting the BWT of `"TAGACAGAGA$"` yields `"TAGACAGAGA$"`. -/
theorem claimC1_testemunha :
    ("TAGACAGAGA$".data.getLast? = some '$' ∧
      "TAGACAGAGA$".data.count '$' = 1 ∧
      ∀ c ∈ "TAGACAGAGA$".data, '$' ≤ c) ∧
    (∃ bwt, construirBWT (ordenarMatriz (criarMatriz "TAGACAGAGA$".data)) = some bwt ∧
      inverter "TAGACAGAGA$".data.length '$' bwt = some "TAGACAGAGA$".data) :=
  ⟨⟨by decide, by decide, by decide⟩,
    @claimC1_ida_e_volta "TAGACAGAGA$".data '$' (by decide) (by decide) (by decide)⟩

/-! ### The FM search loop: prefix counts, the F-block, rotation prefixes -/

/-- The source's `count` table is prefix counting: `count[c][i]` is the
number of occurrences of `c` among the first `i` characters of the BWT. -/
theorem countPrefixo_take (bwt : List Char) (c : Char) :
    ∀ i, countPrefixo bwt c i = (bwt.take i).count c := by
  intro i
  induction i with
  | zero => rfl
  | succ i ih =>
    show countPrefixo bwt c i + (if bwt.get? i = some c then 1 else 0) = _
    rw [ih]
    by_cases hi : i < bwt.length
    · rw [List.take_succ, ← List.get?_eq_getElem?, get?_getD ' ' hi]
      show _ = (bwt.take i ++ [bwt.getD i ' ']).count c
      rw [List.count_append]
      by_cases hc : bwt.getD i ' ' = c
      · rw [if_pos (by rw [hc]), hc]
        simp
      · rw [if_neg (fun h => hc (Option.some.inj h))]
        have h0 : List.count c [bwt.getD i ' '] = 0 := by
          rw [List.count_eq_zero]
          intro hmem
          rw [List.mem_singleton] at hmem
          exact hc hmem.symm
        rw [h0]
    · rw [List.get?_eq_none.mpr (by omega)]
      rw [if_neg (fun h => by cases h)]
      rw [List.take_of_length_le (by omega), List.take_of_length_le (by omega)]
      omega

/-- Counting in prefixes is monotone in the prefix length. -/
theorem count_take_mono (l : List Char) (c : Char) {x y : Nat} (hxy : x ≤ y) :
    (l.take x).count c ≤ (l.take y).count c := by
  have h : l.take x = (l.take y).take x := by
    rw [List.take_take, Nat.min_eq_left hxy]
  rw [h]
  exact (List.take_sublist _ _).count_le _

/-- Extending a prefix past an occurrence raises the count by one. -/
theorem count_take_succ {l : List Char} {c : Char} {b : Nat} (hb : b < l.length)
    (hc : l.getD b ' ' = c) :
    (l.take (b + 1)).count c = (l.take b).count c + 1 := by
  rw [List.take_succ, ← List.get?_eq_getElem?, get?_getD ' ' hb]
  show (l.take b ++ [l.getD b ' ']).count c = _
  rw [List.count_append, hc]
  simp

/-- A prefix count is bounded by one ending at an occurrence exactly when
the prefix ends no later. -/
theorem count_take_le_iff {l : List Char} {c : Char} {b : Nat} (hb : b < l.length)
    (hc : l.getD b ' ' = c) (x : Nat) :
    ((l.take x).count c ≤ (l.take b).count c ↔ x ≤ b) := by
  constructor
  · intro h
    by_contra hx
    have h2 := count_take_mono l c (show b + 1 ≤ x by omega)
    rw [count_take_succ hb hc] at h2
    omega
  · exact fun h => count_take_mono l c h

/-- A prefix count ending at an occurrence is exceeded exactly by prefixes
that end strictly later. -/
theorem count_take_lt_iff {l : List Char} {c : Char} {b : Nat} (hb : b < l.length)
    (hc : l.getD b ' ' = c) (y : Nat) :
    ((l.take b).count c < (l.take y).count c ↔ b < y) := by
  constructor
  · intro h
    by_contra hy
    have h2 := count_take_mono l c (show y ≤ b by omega)
    omega
  · intro h
    have h2 := count_take_mono l c (show b + 1 ≤ y by omega)
    rw [count_take_succ hb hc] at h2
    omega

/-- `indexOf` finds the first occurrence: nothing before it matches. -/
theorem indexOf_primeiro {c : Char} : ∀ (l : List Char) (k : Nat),
    k < l.indexOf c → l.get? k ≠ some c := by
  intro l
  induction l with
  | nil =>
    intro k hk
    rw [List.indexOf_nil] at hk
    exact absurd hk (Nat.not_lt_zero k)
  | cons a l ih =>
    intro k hk
    by_cases ha : a = c
    · subst ha
      rw [List.indexOf_cons_self] at hk
      exact absurd hk (Nat.not_lt_zero k)
    · rw [List.indexOf_cons_ne _ ha] at hk
      cases k with
      | zero => exact fun h => ha (Option.some.inj h)
      | succ k =>
        show l.get? k ≠ some c
        exact ih k (by omega)

/-- In a sorted column the occurrences of a character form the contiguous
block `[indexOf c, indexOf c + count c)`, and inside the block the prefix
counts tick off positions from its start. -/
theorem bloco_sorted (F : List Char) (hsrt : F.Pairwise (· ≤ ·)) (c : Char)
    (hc : c ∈ F) :
    F.indexOf c + F.count c ≤ F.length ∧
    (∀ i, i < F.length →
      (F.getD i ' ' = c ↔ F.indexOf c ≤ i ∧ i < F.indexOf c + F.count c)) ∧
    (∀ i, F.indexOf c ≤ i → i ≤ F.indexOf c + F.count c →
      (F.take i).count c = i - F.indexOf c) := by
  have hf : F.indexOf c < F.length := List.indexOf_lt_length.mpr hc
  have hFf : F.getD (F.indexOf c) ' ' = c := by
    rw [getD_eq_get ' ' hf]
    exact List.getElem_indexOf hf
  have hpg : ∀ i j, i < j → j < F.length → F.getD i ' ' ≤ F.getD j ' ' := by
    intro i j hij hj
    have hi : i < F.length := by omega
    rw [getD_eq_get ' ' hi, getD_eq_get ' ' hj]
    exact List.pairwise_iff_get.mp hsrt ⟨i, hi⟩ ⟨j, hj⟩ hij
  have hfirst : ∀ k, k < F.indexOf c → F.getD k ' ' ≠ c := by
    intro k hk heq
    apply indexOf_primeiro F k hk
    rw [get?_getD ' ' (by omega), heq]
  have hfB : F.indexOf c ∈ (Finset.range F.length).filter (fun i => F.getD i ' ' = c) := by
    rw [Finset.mem_filter, Finset.mem_range]
    exact ⟨hf, hFf⟩
  have hBne : ((Finset.range F.length).filter (fun i => F.getD i ' ' = c)).Nonempty :=
    ⟨F.indexOf c, hfB⟩
  obtain ⟨g, hgl, hgc, hgmax⟩ : ∃ g, g < F.length ∧ F.getD g ' ' = c ∧
      ∀ x, x < F.length → F.getD x ' ' = c → x ≤ g := by
    refine ⟨((Finset.range F.length).filter (fun i => F.getD i ' ' = c)).max' hBne,
      ?_, ?_, ?_⟩
    · have hgB := Finset.max'_mem _ hBne
      rw [Finset.mem_filter, Finset.mem_range] at hgB
      exact hgB.1
    · have hgB := Finset.max'_mem _ hBne
      rw [Finset.mem_filter] at hgB
      exact hgB.2
    · intro x hx hxc
      apply Finset.le_max'
      rw [Finset.mem_filter, Finset.mem_range]
      exact ⟨hx, hxc⟩
  have hfg : F.indexOf c ≤ g := hgmax _ hf hFf
  have hcontig : ∀ i, F.indexOf c ≤ i → i ≤ g → F.getD i ' ' = c := by
    intro i h1 h2
    have hi : i < F.length := by omega
    have ha : c ≤ F.getD i ' ' := by
      rcases Nat.lt_or_ge (F.indexOf c) i with h | h
      · rw [← hFf]
        exact hpg _ i h hi
      · have he : F.indexOf c = i := by omega
        rw [← he, hFf]
    have hb2 : F.getD i ' ' ≤ c := by
      rcases Nat.lt_or_ge i g with h | h
      · rw [← hgc]
        exact hpg i g h hgl
      · have he : i = g := by omega
        rw [he, hgc]
    exact le_antisymm hb2 ha
  have hBIcc : (Finset.range F.length).filter (fun i => F.getD i ' ' = c) =
      Finset.Icc (F.indexOf c) g := by
    ext x
    rw [Finset.mem_filter, Finset.mem_range, Finset.mem_Icc]
    constructor
    · rintro ⟨hx, hxc⟩
      refine ⟨?_, hgmax x hx hxc⟩
      by_contra hlt
      exact hfirst x (by omega) hxc
    · rintro ⟨h1, h2⟩
      exact ⟨by omega, hcontig x h1 h2⟩
  have hm : F.count c = g + 1 - F.indexOf c := by
    have ht : F.count c = (F.take F.length).count c := by rw [List.take_length]
    rw [ht, count_take_card F c F.length (le_refl _), hBIcc, Nat.card_Icc]
  refine ⟨by omega, ?_, ?_⟩
  · intro i hi
    constructor
    · intro hic
      have hiB : i ∈ (Finset.range F.length).filter (fun i => F.getD i ' ' = c) := by
        rw [Finset.mem_filter, Finset.mem_range]
        exact ⟨hi, hic⟩
      rw [hBIcc, Finset.mem_Icc] at hiB
      omega
    · rintro ⟨h1, h2⟩
      have hiI : i ∈ Finset.Icc (F.indexOf c) g := Finset.mem_Icc.mpr (by omega)
      rw [← hBIcc, Finset.mem_filter] at hiI
      exact hiI.2
  · intro i h1 h2
    rw [count_take_card F c i (by omega)]
    have hfil : (Finset.range i).filter (fun x => F.getD x ' ' = c) =
        Finset.Ico (F.indexOf c) i := by
      ext x
      rw [Finset.mem_filter, Finset.mem_range, Finset.mem_Ico]
      constructor
      · rintro ⟨hx, hxc⟩
        refine ⟨?_, hx⟩
        by_contra hlt
        exact hfirst x (by omega) hxc
      · rintro ⟨hx1, hx2⟩
        exact ⟨hx2, hcontig x hx1 (by omega)⟩
    rw [hfil, Nat.card_Ico]

/-- The first column is sorted ascending. -/
theorem colunaF_sorted {s : List Char} {c0 : Char}
    (hlast : s.getLast? = some c0) (hcount : s.count c0 = 1) :
    (colunaF s).Pairwise (· ≤ ·) := by
  rw [← primeira_coluna_eq hlast hcount]
  exact List.sorted_insertionSort _ _

/-- The first column is a permutation of the sequence. -/
theorem colunaF_perm (s : List Char) : (colunaF s).Perm s := by
  apply ((suffix_array_perm s).map _).trans
  rw [map_getD_range]

/-- The last column is a permutation of the sequence. -/
theorem colunaL_perm {s : List Char} (hs : s ≠ []) : (colunaL s).Perm s := by
  apply ((suffix_array_perm s).map _).trans
  exact ultimos_rotacoes_perm hs

/-- `mapM get?` over an in-bounds index range slices the list. -/
theorem mapM_get?_fatia {α : Type _} (l : List α) :
    ∀ (m a : Nat), a + m ≤ l.length →
      (List.range' a m).mapM l.get? = some ((l.drop a).take m) := by
  intro m
  induction m with
  | zero =>
    intro a _
    rfl
  | succ m ih =>
    intro a ha
    rw [List.range'_succ, List.mapM_cons]
    have ha2 : a < l.length := by omega
    rw [List.get?_eq_get ha2, ih (a + 1) (by omega)]
    show some (l.get ⟨a, ha2⟩ :: (l.drop (a + 1)).take m) = some ((l.drop a).take (m + 1))
    rw [List.drop_eq_get_cons ha2]
    rfl

/-- Membership in the brute-force oracle. -/
theorem ocorrencia_mem {s p : List Char} {k : Nat} :
    k ∈ ocorrenciasForcaBruta s p ↔
      k < s.length ∧ (s.drop k).take p.length = p := by
  unfold ocorrenciasForcaBruta
  simp only [List.mem_filter, List.mem_range, beq_iff_eq]

/-- An occurrence of a pattern in the sequence is a prefix of the rotation
starting there. -/
theorem ocorrencia_para_rotacao {s p : List Char} {k : Nat} (hk : k < s.length)
    (h : (s.drop k).take p.length = p) :
    (rotacao s k).take p.length = p := by
  have hlen : p.length ≤ s.length - k := by
    have h2 := congrArg List.length h
    rw [List.length_take, List.length_drop] at h2
    omega
  unfold rotacao
  rw [List.take_append_of_le_length (by rw [List.length_drop]; omega)]
  exact h

/-- For a sentinel-free pattern, a rotation prefix cannot wrap around the
final sentinel, so it is an occurrence in the sequence itself. -/
theorem rotacao_para_ocorrencia {s p : List Char} {c0 : Char}
    (hlast : s.getLast? = some c0) (hp : c0 ∉ p) {k : Nat} (hk : k < s.length)
    (h : (rotacao s k).take p.length = p) :
    (s.drop k).take p.length = p := by
  by_cases hlen : p.length ≤ s.length - k
  · have he : (rotacao s k).take p.length = (s.drop k).take p.length := by
      unfold rotacao
      rw [List.take_append_of_le_length (by rw [List.length_drop]; omega)]
    rw [← he]
    exact h
  · exfalso
    apply hp
    have hj : s.length - 1 - k < p.length := by omega
    have hjp : p.get? (s.length - 1 - k) = some c0 := by
      rw [← h, List.get?_take hj]
      show (s.drop k ++ s.take k).get? (s.length - 1 - k) = some c0
      rw [List.get?_append (by rw [List.length_drop]; omega), List.get?_drop]
      have he : k + (s.length - 1 - k) = s.length - 1 := by omega
      rw [he, ← List.getLast?_eq_get?]
      exact hlast
    rcases List.get?_eq_some.mp hjp with ⟨hb, hget⟩
    exact hget ▸ List.get_mem _ _ _

/-- Splitting one symbol off a rotation prefix: the symbol stands at the
rotation's start and the rest prefixes the next rotation. -/
theorem decomposicao_rotacao {s : List Char} {k : Nat} (hk : k < s.length)
    {c : Char} {Q : List Char} (hQ : Q.length ≤ s.length - 1) :
    ((rotacao s k).take (Q.length + 1) = c :: Q ↔
      (s.getD k ' ' = c ∧ (rotacao s ((k + 1) % s.length)).take Q.length = Q)) := by
  have htail : (s.drop (k + 1) ++ s.take k).length = s.length - 1 := by
    rw [List.length_append, List.length_drop, List.length_take]
    omega
  rw [rotacao_cons hk, rot_succ hk,
    List.take_append_of_le_length (by rw [htail]; omega),
    List.take_succ_cons, List.cons.injEq]

/-- Peeling a leading block off a rotation prefix moves the rotation start
past the block. -/
theorem pelar {s : List Char} : ∀ (A W : List Char) (k : Nat), k < s.length →
    A.length + W.length ≤ s.length →
    (rotacao s k).take (A.length + W.length) = A ++ W →
    (rotacao s ((k + A.length) % s.length)).take W.length = W := by
  intro A
  induction A with
  | nil =>
    intro W k hk _ h
    rw [List.length_nil, Nat.add_zero, Nat.mod_eq_of_lt hk]
    rw [List.length_nil, Nat.zero_add] at h
    rw [List.nil_append] at h
    exact h
  | cons a A ih =>
    intro W k hk hlen h
    have hn : 0 < s.length := by omega
    have hlc : (a :: A).length = A.length + 1 := List.length_cons a A
    have hQl : (A ++ W).length ≤ s.length - 1 := by
      rw [List.length_append]
      omega
    rw [List.cons_append] at h
    have he : (a :: A).length + W.length = (A ++ W).length + 1 := by
      rw [List.length_cons, List.length_append]
      omega
    rw [he] at h
    have h3 := (decomposicao_rotacao hk hQl).mp h
    have h5 : (rotacao s ((k + 1) % s.length)).take (A.length + W.length) = A ++ W := by
      have h4 := h3.2
      rwa [List.length_append] at h4
    have h6 := ih W ((k + 1) % s.length) (Nat.mod_lt _ hn)
      (by rw [List.length_append] at hQl; omega) h5
    have he2 : ((k + 1) % s.length + A.length) % s.length =
        (k + (a :: A).length) % s.length := by
      rw [Nat.mod_add_mod, hlc]
      have h7 : k + 1 + A.length = k + (A.length + 1) := by omega
      rw [h7]
    rwa [he2] at h6

/-- If no rotation carries the consumed suffix `Q` as a prefix, the full
pattern `R.reverse ++ Q` occurs nowhere. -/
theorem oracle_vazio_sem_linha {s : List Char} {c0 : Char}
    (hlast : s.getLast? = some c0)
    (R Q : List Char) (hlen : R.length + Q.length ≤ s.length)
    (hnull : ∀ j, j < s.length → (rotacao s j).take Q.length ≠ Q) :
    ocorrenciasForcaBruta s (R.reverse ++ Q) = [] := by
  rw [List.eq_nil_iff_forall_not_mem]
  intro x hx
  rw [ocorrencia_mem] at hx
  obtain ⟨hxl, hocc⟩ := hx
  have hrot := ocorrencia_para_rotacao hxl hocc
  have hlen2 : R.reverse.length + Q.length ≤ s.length := by
    rw [List.length_reverse]
    exact hlen
  have hrot2 : (rotacao s x).take (R.reverse.length + Q.length) = R.reverse ++ Q := by
    rw [← List.length_append]
    exact hrot
  have h2 := pelar R.reverse Q x hxl hlen2 hrot2
  exact hnull _ (Nat.mod_lt _ (by omega)) h2

/-- Correctness invariant of the FM search loop: when the interval
`[top, bottom]` holds exactly the rows of the sorted matrix whose
rotations begin with the already-consumed pattern suffix `Q`, the loop
returns exactly the brute-force occurrence list of the full pattern
`resto.reverse ++ Q`. -/
theorem pesquisa_invariante {s : List Char} {c0 : Char}
    (hlast : s.getLast? = some c0) (hcount : s.count c0 = 1) :
    ∀ (resto Q : List Char) (top bottom : Int),
      (∀ c ∈ resto, c ∈ s) → c0 ∉ resto → c0 ∉ Q →
      resto.length + Q.length ≤ s.length →
      0 ≤ top → bottom ≤ (s.length : Int) - 1 →
      (∀ i : Nat, i < s.length →
        ((top ≤ (i : Int) ∧ (i : Int) ≤ bottom) ↔
          (rotacao s ((suffix_array s).getD i 0)).take Q.length = Q)) →
      pesquisaFM (colunaL s) (colunaF s) (some (suffix_array s)) resto top bottom =
        some (ocorrenciasForcaBruta s (resto.reverse ++ Q)) := by
  have hs : s ≠ [] := fun h => by rw [h] at hlast; cases hlast
  have hn : 0 < s.length := List.length_pos.mpr hs
  have hsal : (suffix_array s).length = s.length := suffix_array_length s
  intro resto
  induction resto with
  | nil =>
    intro Q top bottom _ _ hc0Q hQlen htop hbot hinv
    rw [pesquisaFM_nil, List.reverse_nil, List.nil_append]
    by_cases htb : top ≤ bottom
    · rw [if_pos htb]
      have hb0 : 0 ≤ bottom := le_trans htop htb
      have hmapM : (List.range' top.toNat ((bottom + 1 - top).toNat)).mapM
          (suffix_array s).get? =
          some (((suffix_array s).drop top.toNat).take ((bottom + 1 - top).toNat)) :=
        mapM_get?_fatia (suffix_array s) _ _ (by rw [hsal]; omega)
      show (match (List.range' top.toNat ((bottom + 1 - top).toNat)).mapM
          (suffix_array s).get? with
        | none => none
        | some offsets => some (offsets.insertionSort (· ≤ ·))) =
          some (ocorrenciasForcaBruta s Q)
      rw [hmapM]
      show some ((((suffix_array s).drop top.toNat).take
          ((bottom + 1 - top).toNat)).insertionSort (· ≤ ·)) =
        some (ocorrenciasForcaBruta s Q)
      congr 1
      have hslice_nd : (((suffix_array s).drop top.toNat).take
          ((bottom + 1 - top).toNat)).Nodup :=
        ((List.take_sublist _ _).trans (List.drop_sublist _ _)).nodup
          (suffix_array_nodup s)
      have horacle_nd : (ocorrenciasForcaBruta s Q).Nodup :=
        (List.nodup_range _).filter _
      refine @List.eq_of_perm_of_sorted _ ((· ≤ ·) : Nat → Nat → Prop) _ _ _ ?_ ?_ ?_
      · apply (List.perm_insertionSort _ _).trans
        apply (List.perm_ext_iff_of_nodup hslice_nd horacle_nd).mpr
        intro x
        constructor
        · intro hxs
          rw [List.mem_iff_get?] at hxs
          obtain ⟨i, hi⟩ := hxs
          have hilt : i < (bottom + 1 - top).toNat := by
            obtain ⟨hb2, -⟩ := List.get?_eq_some.mp hi
            rw [List.length_take, List.length_drop, hsal] at hb2
            omega
          rw [List.get?_take hilt, List.get?_drop] at hi
          have hjn : top.toNat + i < s.length := by omega
          have hx : x = (suffix_array s).getD (top.toNat + i) 0 := by
            rw [get?_getD 0 (by rw [hsal]; omega)] at hi
            exact (Option.some.inj hi).symm
          have hrow := (hinv (top.toNat + i) hjn).mp (by omega)
          have hxlt : x < s.length := by
            rw [hx]
            exact sa_getD_lt (by rw [hsal]; omega)
          rw [ocorrencia_mem]
          refine ⟨hxlt, rotacao_para_ocorrencia hlast hc0Q hxlt ?_⟩
          rw [hx]
          exact hrow
        · intro hxo
          rw [ocorrencia_mem] at hxo
          obtain ⟨hxl, hocc⟩ := hxo
          have hrot := ocorrencia_para_rotacao hxl hocc
          have hjl : linha s x < s.length := by
            rw [← hsal]
            exact linha_lt hxl
          have hsaj : (suffix_array s).getD (linha s x) 0 = x := sa_linha hxl
          have hrange := (hinv (linha s x) hjl).mpr (by rw [hsaj]; exact hrot)
          obtain ⟨hr1, hr2⟩ := hrange
          rw [List.mem_iff_get?]
          refine ⟨linha s x - top.toNat, ?_⟩
          rw [List.get?_take (by omega), List.get?_drop]
          have he : top.toNat + (linha s x - top.toNat) = linha s x := by omega
          rw [he, get?_getD 0 (by rw [hsal]; omega), hsaj]
      · exact List.sorted_insertionSort _ _
      · show (ocorrenciasForcaBruta s Q).Pairwise _
        unfold ocorrenciasForcaBruta
        exact ((List.pairwise_lt_range _).filter _).imp (fun h => Nat.le_of_lt h)
    · rw [if_neg htb]
      congr 1
      symm
      apply oracle_vazio_sem_linha hlast [] Q hQlen
      intro j hj hrot
      have hjl : linha s j < s.length := by
        have h9 := linha_lt hj
        omega
      have hsaj : (suffix_array s).getD (linha s j) 0 = j := sa_linha hj
      have hj2 := (hinv _ hjl).mpr (by rw [hsaj]; exact hrot)
      exact htb (le_trans hj2.1 hj2.2)
  | cons c resto ih =>
    intro Q top bottom hsub hc0r hc0Q hQlen htop hbot hinv
    rw [pesquisaFM_cons]
    have hre : (c :: resto).reverse ++ Q = resto.reverse ++ (c :: Q) := by
      rw [List.reverse_cons, List.append_assoc, List.singleton_append]
    by_cases htb : top ≤ bottom
    · rw [if_pos htb]
      have hb0 : 0 ≤ bottom := le_trans htop htb
      have hcs : c ∈ s := hsub c (List.mem_cons_self _ _)
      have hcL : c ∈ colunaL s := (colunaL_perm hs).mem_iff.mpr hcs
      rw [if_pos hcL]
      have hb1 : (bottom + 1).toNat = bottom.toNat + 1 := by omega
      rw [countPrefixo_take, countPrefixo_take, hb1]
      have hQl2 : Q.length ≤ s.length - 1 := by
        rw [List.length_cons] at hQlen
        omega
      have hLlen : (colunaL s).length = s.length := colunaL_length s
      have hFlen : (colunaF s).length = s.length := colunaF_length s
      by_cases hgt : ((colunaL s).take (bottom.toNat + 1)).count c >
          ((colunaL s).take top.toNat).count c
      · rw [if_pos hgt]
        rw [hre]
        have hcF : c ∈ colunaF s := (colunaF_perm s).mem_iff.mpr hcs
        obtain ⟨hblock1, hblock2, hblock3⟩ :=
          bloco_sorted (colunaF s) (colunaF_sorted hlast hcount) c hcF
        have hcountLF : (colunaL s).count c = (colunaF s).count c :=
          ((colunaL_perm hs).trans (colunaF_perm s).symm).count_eq c
        have hcBle : ((colunaL s).take (bottom.toNat + 1)).count c ≤
            (colunaF s).count c := by
          rw [← hcountLF]
          exact (List.take_sublist _ _).count_le _
        apply ih (c :: Q)
        · exact fun x hx => hsub x (List.mem_cons_of_mem _ hx)
        · exact fun h => hc0r (List.mem_cons_of_mem _ h)
        · intro h
          rcases List.mem_cons.mp h with h | h
          · exact hc0r (h ▸ List.mem_cons_self _ _)
          · exact hc0Q h
        · rw [List.length_cons]
          rw [List.length_cons] at hQlen
          omega
        · omega
        · omega
        · intro i hi
          rw [List.length_cons]
          have hisa : i < (suffix_array s).length := by rw [hsal]; exact hi
          have hkl : (suffix_array s).getD i 0 < s.length := sa_getD_lt hisa
          rw [decomposicao_rotacao hkl hQl2]
          have hFi : (colunaF s).getD i ' ' =
              s.getD ((suffix_array s).getD i 0) ' ' := colunaF_getD hisa
          rw [← hFi]
          have hmod : ((suffix_array s).getD i 0 + 1) % s.length < s.length :=
            Nat.mod_lt _ hn
          have hjl : linha s (((suffix_array s).getD i 0 + 1) % s.length) <
              s.length := by
            have h9 := linha_lt hmod
            omega
          have hsaj : (suffix_array s).getD
              (linha s (((suffix_array s).getD i 0 + 1) % s.length)) 0 =
              ((suffix_array s).getD i 0 + 1) % s.length := sa_linha hmod
          have hrotj := (hinv _ hjl).symm
          rw [hsaj] at hrotj
          rw [hrotj]
          have hjLlen : linha s (((suffix_array s).getD i 0 + 1) % s.length) <
              (colunaL s).length := by omega
          have hlf := lf_rank hlast hcount hisa (by rw [hsal]; exact hjl) hsaj
          have hLjF : (colunaL s).getD
              (linha s (((suffix_array s).getD i 0 + 1) % s.length)) ' ' =
              (colunaF s).getD i ' ' := by
            rw [colunaL_linha_succ hkl]
            exact hFi.symm
          constructor
          · rintro ⟨h1, h2⟩
            have hint : (colunaF s).indexOf c ≤ i ∧
                i < (colunaF s).indexOf c + (colunaF s).count c := by
              constructor
              · omega
              · omega
            have hFic : (colunaF s).getD i ' ' = c := (hblock2 i (by omega)).mpr hint
            refine ⟨hFic, ?_⟩
            have hrank : ((colunaF s).take i).count c = i - (colunaF s).indexOf c :=
              hblock3 i hint.1 (by omega)
            rw [hFic] at hlf
            have hLj : (colunaL s).getD
                (linha s (((suffix_array s).getD i 0 + 1) % s.length)) ' ' = c := by
              rw [hLjF]
              exact hFic
            have hple := (count_take_le_iff hjLlen hLj top.toNat).mp
              (by rw [hlf, hrank]; omega)
            have hplt := (count_take_lt_iff hjLlen hLj (bottom.toNat + 1)).mp
              (by rw [hlf, hrank]; omega)
            omega
          · rintro ⟨hFic, hj1, hj2⟩
            rw [hFic] at hlf
            have hLj : (colunaL s).getD
                (linha s (((suffix_array s).getD i 0 + 1) % s.length)) ' ' = c := by
              rw [hLjF]
              exact hFic
            have hint := (hblock2 i (by omega)).mp hFic
            have hrank : ((colunaF s).take i).count c = i - (colunaF s).indexOf c :=
              hblock3 i hint.1 (by omega)
            have h1 := (count_take_le_iff hjLlen hLj top.toNat).mpr (by omega)
            have h2 := (count_take_lt_iff hjLlen hLj (bottom.toNat + 1)).mpr (by omega)
            rw [hlf, hrank] at h1 h2
            constructor
            · omega
            · omega
      · rw [if_neg hgt]
        congr 1
        symm
        rw [hre]
        apply oracle_vazio_sem_linha hlast resto (c :: Q)
        · rw [List.length_cons]
          rw [List.length_cons] at hQlen
          omega
        · intro x hx hrot
          rw [List.length_cons] at hrot
          obtain ⟨hxc, hxrot⟩ := (decomposicao_rotacao hx hQl2).mp hrot
          have hx1 : (x + 1) % s.length < s.length := Nat.mod_lt _ hn
          have hjl : linha s ((x + 1) % s.length) < s.length := by
            have h9 := linha_lt hx1
            omega
          have hsaj : (suffix_array s).getD (linha s ((x + 1) % s.length)) 0 =
              (x + 1) % s.length := sa_linha hx1
          have hrange := (hinv _ hjl).mpr (by rw [hsaj]; exact hxrot)
          obtain ⟨hr1, hr2⟩ := hrange
          have hLj : (colunaL s).getD (linha s ((x + 1) % s.length)) ' ' = c := by
            rw [colunaL_linha_succ hx]
            exact hxc
          have hmono1 : ((colunaL s).take top.toNat).count c ≤
              ((colunaL s).take (linha s ((x + 1) % s.length))).count c :=
            count_take_mono _ _ (by omega)
          have hsucc : ((colunaL s).take (linha s ((x + 1) % s.length) + 1)).count c =
              ((colunaL s).take (linha s ((x + 1) % s.length))).count c + 1 :=
            count_take_succ (by omega) hLj
          have hmono2 : ((colunaL s).take (linha s ((x + 1) % s.length) + 1)).count c ≤
              ((colunaL s).take (bottom.toNat + 1)).count c :=
            count_take_mono _ _ (by omega)
          omega
    · rw [if_neg htb]
      congr 1
      symm
      rw [hre]
      apply oracle_vazio_sem_linha hlast resto (c :: Q)
      · rw [List.length_cons]
        rw [List.length_cons] at hQlen
        omega
      · intro j hj hrot
        rw [List.length_cons] at hrot
        have hQl2 : Q.length ≤ s.length - 1 := by
          rw [List.length_cons] at hQlen
          omega
        obtain ⟨hjc, hjrot⟩ := (decomposicao_rotacao hj hQl2).mp hrot
        have hj1 : (j + 1) % s.length < s.length := Nat.mod_lt _ hn
        have hjl : linha s ((j + 1) % s.length) < s.length := by
          have h9 := linha_lt hj1
          omega
        have hsaj : (suffix_array s).getD (linha s ((j + 1) % s.length)) 0 =
            (j + 1) % s.length := sa_linha hj1
        have hj2 := (hinv _ hjl).mpr (by rw [hsaj]; exact hjrot)
        exact htb (le_trans hj2.1 hj2.2)

/-- **C2 (amended).** Search oracle correctness: for every sequence `S`
carrying a unique lexicographically minimal sentinel at its final
position, and every pattern `P` with `len(P) <= len(S)` that is
sentinel-free and whose symbols all occur in `S`, searching `P` (after
`suffix_array` has been built, as the driver does) returns exactly the
ascending list of indices `i` with `S[i : i+len(P)] == P` computed by a
brute-force scan. -/
theorem claimC2_pesquisa_oraculo {s p : List Char} {c0 : Char}
    (hlast : s.getLast? = some c0) (hcount : s.count c0 = 1)
    (hmin : ∀ c ∈ s, c0 ≤ c)
    (hsub : ∀ c ∈ p, c ∈ s) (hsent : c0 ∉ p) (hlen : p.length ≤ s.length) :
    procuraPadraoBWT ⟨s, [], some (suffix_array s)⟩ p =
      some (ocorrenciasForcaBruta s p) := by
  have hs : s ≠ [] := fun h => by rw [h] at hlast; cases hlast
  have hn : 0 < s.length := List.length_pos.mpr hs
  unfold procuraPadraoBWT
  rw [matriz_ordenada_eq hlast hcount,
    construirBWT_rotacoes hs (fun k hk => suffix_array_mem.mp hk)]
  show pesquisaFM (colunaL s) ((colunaL s).insertionSort (· ≤ ·))
      (some (suffix_array s)) p.reverse 0 (((colunaL s).length : Int) - 1) =
    some (ocorrenciasForcaBruta s p)
  have hsort : (colunaL s).insertionSort (· ≤ ·) = colunaF s :=
    primeira_coluna_eq hlast hcount
  rw [hsort, show ((colunaL s).length : Int) = (s.length : Int) by
    rw [colunaL_length]]
  have h := pesquisa_invariante hlast hcount p.reverse [] 0 ((s.length : Int) - 1)
    (fun c hc => hsub c (List.mem_reverse.mp hc))
    (fun hmem => hsent (List.mem_reverse.mp hmem))
    (fun hmem => by cases hmem)
    (by rw [List.length_reverse, List.length_nil]; omega)
    (le_refl 0)
    (le_refl _)
    (by
      intro i hi
      constructor
      · intro _
        rfl
      · intro _
        omega)
  rw [List.reverse_reverse, List.append_nil] at h
  exact h

/-- Witness for C2 at the worked example: searching `"AGA"` over
`"TAGACAGAGA$"` returns `[1, 5, 7]`, the brute-force occurrence list. -/
theorem claimC2_testemunha :
    (("TAGACAGAGA$".data.getLast? = some '$') ∧
      "TAGACAGAGA$".data.count '$' = 1 ∧
      (∀ c ∈ "TAGACAGAGA$".data, '$' ≤ c) ∧
      (∀ c ∈ "AGA".data, c ∈ "TAGACAGAGA$".data) ∧
      '$' ∉ "AGA".data ∧
      "AGA".data.length ≤ "TAGACAGAGA$".data.length) ∧
    ocorrenciasForcaBruta "TAGACAGAGA$".data "AGA".data = [1, 5, 7] ∧
    procuraPadraoBWT
      ⟨"TAGACAGAGA$".data, [], some (suffix_array "TAGACAGAGA$".data)⟩
      "AGA".data = some [1, 5, 7] :=
  ⟨⟨by decide, by decide, by decide, by decide, by decide, by decide⟩,
    by decide,
    by
      rw [@claimC2_pesquisa_oraculo "TAGACAGAGA$".data "AGA".data '$'
        (by decide) (by decide) (by decide) (by decide) (by decide) (by decide)]
      decide⟩
